import Mathlib

/-!
# Verification of the Indoor Map Designer navigation engine

A shallow embedding of the navigation graph engine (`edge_loader.py` and
`route_v2.py`): graph loading, adjacency construction, the Floyd-Warshall
all-pairs distance matrix, Dijkstra single-pair search, instruction
generation and semantic location resolution, together with proofs about
them.

Numeric edge weights and distances are modelled by rationals; the value
`float('inf')` used by the matrix and the Dijkstra tentative-distance map
is modelled by `⊤` in `WithTop ℚ`.
-/

/-- Weight values: a rational number or positive infinity. -/
abbrev W : Type := WithTop ℚ

/-- All-pairs matrix: a list of rows, as in the source. -/
abbrev Mat : Type := List (List W)

/-! ## String ordering

Python's `sorted` on strings compares by code points, lexicographically.
We model this with an explicit lexicographic comparison on the code-point
lists of the strings. -/

/-- Lexicographic comparison of code-point lists. -/
def lexLe : List Char → List Char → Bool
  | [], _ => true
  | _ :: _, [] => false
  | a :: as, b :: bs =>
    if a.val < b.val then true
    else if b.val < a.val then false
    else lexLe as bs

/-- Code-point lexicographic order on strings (Python string comparison). -/
def strLe (a b : String) : Bool := lexLe a.toList b.toList

/-- `sorted(keys)`: the keys in ascending code-point lexicographic order. -/
def sortIds (l : List String) : List String :=
  l.insertionSort (fun a b => strLe a b = true)

/-! ## Data model -/

/-- A navigation node (`NavigationNode`).  Only the attributes stored by the
loader are kept; none of the routing algorithms consult them. -/
structure NavigationNode where
  id : String
  position : ℚ × ℚ
  floor : Int
  rotation : String
  index : Int
  inct : Option String
deriving Repr, DecidableEq

/-- An explicit navigation edge (`NavigationEdge`). -/
structure NavigationEdge where
  id : String
  start : String
  «end» : String
  distance : ℚ
  bidirectional : Bool
  weight : ℚ
  floor : Int
deriving Repr, DecidableEq

/-- The state of a loaded `NavigationGraph`: the node-dictionary keys in
insertion order and the accepted edge list.  The node attribute values are
not consulted by any routing operation, so only the keys are kept here;
`loadNodes` below builds the full dictionary. -/
structure NavigationGraph where
  nodes : List String
  edges : List NavigationEdge
deriving Repr, DecidableEq

/-- `_build_adjacency_list`: for every edge insert `(end, weight)` under
`start`, and additionally `(start, weight)` under `end` when the edge is
bidirectional, in edge-list order. -/
def adjacencyOf (edges : List NavigationEdge) (v : String) : List (String × ℚ) :=
  edges.flatMap fun e =>
    (if e.start = v then [(e.«end», e.weight)] else []) ++
    (if e.bidirectional = true ∧ e.«end» = v then [(e.start, e.weight)] else [])

/-- Least weight among the entries of an adjacency list that point at `v`
(`⊤` when there is none). -/
def entryMin (entries : List (String × ℚ)) (v : String) : W :=
  (entries.filter (fun p => p.1 = v)).foldr (fun p acc => min (↑p.2) acc) ⊤

/-- The effective arc weight from `u` to `v`: the least adjacency-entry
weight, `⊤` when `v` is not adjacent to `u`. -/
def arcW (edges : List NavigationEdge) (u v : String) : W :=
  entryMin (adjacencyOf edges u) v

/-! ## Weight matrix (`_build_weight_matrix` and `_floyd_warshall`) -/

/-- Read one matrix cell.  The source indexes only cells that exist; the
defaults here are never reached on matrices of the right dimensions. -/
def matGet (m : Mat) (i j : ℕ) : W :=
  (m.getD i []).getD j ⊤

/-- Overwrite one matrix cell (`m[i][j] = v`). -/
def matUpdate (m : Mat) (i j : ℕ) (v : W) : Mat :=
  m.set i ((m.getD i []).set j v)

/-- The canonical node ordering: node ids sorted ascending (`sorted(self.nodes.keys())`). -/
def NavigationGraph.sortedNodes (g : NavigationGraph) : List String :=
  sortIds g.nodes

/-- `node_index_map`: position of a node id in the sorted ordering. -/
def NavigationGraph.nodeIndex (g : NavigationGraph) (v : String) : ℕ :=
  List.indexOf v g.sortedNodes

/-- Writes performed for one edge: the forward cell always, the backward
cell additionally when the edge is bidirectional. -/
def edgeWrites (g : NavigationGraph) (m : Mat) (e : NavigationEdge) : Mat :=
  let m1 := matUpdate m (g.nodeIndex e.start) (g.nodeIndex e.«end») (↑e.weight)
  if e.bidirectional = true then
    matUpdate m1 (g.nodeIndex e.«end») (g.nodeIndex e.start) (↑e.weight)
  else m1

/-- `for i in range(n): weight_matrix[i][i] = 0`. -/
def zeroDiag : ℕ → Mat → Mat
  | 0, m => m
  | i + 1, m => matUpdate (zeroDiag i m) i i 0

/-- The matrix before the closure: `inf` everywhere, `0` on the diagonal,
then every edge written in edge-list order (assignment, so a later edge
overwrites an earlier one on the same cell). -/
def NavigationGraph.initMatrix (g : NavigationGraph) : Mat :=
  let n := g.sortedNodes.length
  g.edges.foldl (edgeWrites g) (zeroDiag n (List.replicate n (List.replicate n ⊤)))

/-- One relaxation `if m[i][k] + m[k][j] < m[i][j]: m[i][j] = m[i][k] + m[k][j]`,
performed in place. -/
def fwRelax (m : Mat) (k i j : ℕ) : Mat :=
  if matGet m i k + matGet m k j < matGet m i j then
    matUpdate m i j (matGet m i k + matGet m k j)
  else m

/-- Innermost loop: `for j in range(jc)`. -/
def fwJ (k i : ℕ) : ℕ → Mat → Mat
  | 0, m => m
  | j + 1, m => fwRelax (fwJ k i j m) k i j

/-- Middle loop: `for i in range(ic)`, each running the inner loop over `range jc`. -/
def fwI (k jc : ℕ) : ℕ → Mat → Mat
  | 0, m => m
  | i + 1, m => fwJ k i jc (fwI k jc i m)

/-- Outer loop: `for k in range(kc)`, over the in-place matrix. -/
def fwK (ic jc : ℕ) : ℕ → Mat → Mat
  | 0, m => m
  | k + 1, m => fwI k jc ic (fwK ic jc k m)

/-- `_floyd_warshall` on an `n`-node graph: the triple loop, in place. -/
def floydWarshallN (n : ℕ) (m : Mat) : Mat := fwK n n n m

/-- The weight matrix after `_build_weight_matrix` (which ends by running
`_floyd_warshall`). -/
def NavigationGraph.matrix (g : NavigationGraph) : Mat :=
  floydWarshallN g.sortedNodes.length g.initMatrix

/-- `get_distance`: matrix lookup, `inf` when either id is not indexed. -/
def NavigationGraph.get_distance (g : NavigationGraph) (start_id end_id : String) : W :=
  if start_id ∈ g.sortedNodes ∧ end_id ∈ g.sortedNodes then
    matGet g.matrix (g.nodeIndex start_id) (g.nodeIndex end_id)
  else ⊤

/-! ## Dijkstra search (`find_path`) -/

/-- The mutable state of the search: the unvisited node list, the
tentative-distance map and the predecessor map. -/
structure DState where
  unvisited : List String
  dist : String → W
  prev : String → Option String

/-- `min(unvisited, key=...)`: scan keeping the first element of least
tentative distance (strict improvement only, so the earliest minimum wins). -/
def selectMin (d : String → W) : String → List String → String
  | best, [] => best
  | best, x :: xs => selectMin d (if d x < d best then x else best) xs

/-- Relaxation of a single adjacency entry of `current`: only unvisited
neighbors are touched, and only on strict improvement. -/
def relaxEntry (current : String) (st : DState) (p : String × ℚ) : DState :=
  if p.1 ∈ st.unvisited then
    let nd := st.dist current + ↑p.2
    if nd < st.dist p.1 then
      { st with
        dist := fun v => if v = p.1 then nd else st.dist v,
        prev := fun v => if v = p.1 then some current else st.prev v }
    else st
  else st

/-- Relax every adjacency entry of `current`, in list order. -/
def relaxFold (current : String) (st : DState) (entries : List (String × ℚ)) : DState :=
  entries.foldl (relaxEntry current) st

/-- The `while unvisited:` loop.  Every iteration that does not break
removes one node, so fuel `|nodes| + 1` is enough for the loop to reach
one of its three exits. -/
def dijkstraLoop (g : NavigationGraph) (end_id : String) : ℕ → DState → DState
  | 0, st => st
  | fuel + 1, st =>
    match st.unvisited with
    | [] => st
    | u :: us =>
      let current := selectMin st.dist u us
      if st.dist current = ⊤ then st
      else if current = end_id then st
      else
        let st1 : DState :=
          { unvisited := st.unvisited.erase current, dist := st.dist, prev := st.prev }
        dijkstraLoop g end_id fuel (relaxFold current st1 (adjacencyOf g.edges current))

/-- `while current is not None: path.insert(0, current); current = previous[current]`.
Predecessor chains always step to a node removed strictly earlier, so they
are cycle-free and fuel `|nodes| + 1` is never exhausted on states produced
by the loop. -/
def walkBack (prev : String → Option String) : ℕ → String → List String → Option (List String)
  | 0, _, _ => none
  | fuel + 1, c, acc =>
    match prev c with
    | none => some (c :: acc)
    | some u => walkBack prev fuel u (c :: acc)

/-- The state in which the search starts. -/
def dijkstraInit (g : NavigationGraph) (start_id : String) : DState :=
  { unvisited := g.nodes,
    dist := fun v => if v = start_id then 0 else ⊤,
    prev := fun _ => none }

/-- `find_path`: unknown endpoints give `None`; a start equal to the end
gives the single-node path; otherwise Dijkstra runs and the path is
reconstructed backwards from the destination. -/
def NavigationGraph.find_path (g : NavigationGraph) (start_id end_id : String) :
    Option (List String) :=
  if start_id ∈ g.nodes ∧ end_id ∈ g.nodes then
    if start_id = end_id then some [start_id]
    else
      let st := dijkstraLoop g end_id (g.nodes.length + 1) (dijkstraInit g start_id)
      if st.dist end_id = ⊤ then none
      else walkBack st.prev (g.nodes.length + 1) end_id []
  else none

/-! ## Instruction generation (`get_path_instructions`) -/

/-- One step of the itinerary.  The human-readable phrase of the source is
presentation-only string formatting and carries no further data, so it is
not modelled. -/
structure Instruction where
  «from» : String
  «to» : String
  distance : W
  cumulative_distance : W
deriving Repr, DecidableEq

/-- Per-step distance: the declared distance of the first edge of the edge
list connecting the two consecutive nodes (respecting directionality),
falling back to the weight matrix when no edge record matches. -/
def NavigationGraph.stepDistance (g : NavigationGraph) (current_id next_id : String) : W :=
  match g.edges.find? (fun e =>
      (e.start = current_id ∧ e.«end» = next_id) ∨
      (e.bidirectional = true ∧ e.start = next_id ∧ e.«end» = current_id)) with
  | some e => ↑e.distance
  | none => g.get_distance current_id next_id

/-- The instruction loop, threading the running cumulative distance. -/
def instrGo (g : NavigationGraph) : W → List String → List Instruction
  | _, [] => []
  | _, [_] => []
  | total, a :: b :: rest =>
    let ed := g.stepDistance a b
    let total2 := total + ed
    ⟨a, b, ed, total2⟩ :: instrGo g total2 (b :: rest)

/-- `get_path_instructions`: empty for paths shorter than two nodes. -/
def NavigationGraph.get_path_instructions (g : NavigationGraph) (path : List String) :
    List Instruction :=
  if path.length < 2 then [] else instrGo g 0 path

/-! ## Walk costs

The reference notion used to relate the matrix, the search and the
instruction totals: the cost of a vertex sequence under a per-step cost
function. -/

/-- Cost of a vertex sequence: the sum of the per-step costs. -/
def wcost {α : Type} (c : α → α → W) : List α → W
  | [] => 0
  | [_] => 0
  | a :: b :: rest => c a b + wcost c (b :: rest)

/-- Total weight of a path: the sum of the effective arc weights along it. -/
def pathW (g : NavigationGraph) (p : List String) : W :=
  wcost (arcW g.edges) p

/-- Total physical distance of a path: the sum of its step distances. -/
def pathPhysDistance (g : NavigationGraph) (p : List String) : W :=
  wcost g.stepDistance p

/-! ## Location resolution and routing (`route_v2.py`) -/

/-- A point of interest: display name, feature type, floor and the parsed
access-node list. -/
structure PoiInfo where
  name : String
  ptype : String
  floor : Int
  access_nodes : List String
deriving Repr, DecidableEq

/-- A room: display name, floor and the parsed access-node list. -/
structure RoomInfo where
  name : String
  floor : Int
  access_nodes : List String
deriving Repr, DecidableEq

/-- First value stored under a key in an association list (dictionary lookup). -/
def dictFind {A : Type} (d : List (String × A)) (k : String) : Option A :=
  (d.find? (fun p => p.1 = k)).map (fun p => p.2)

/-- The state of an `IndoorNavigation` instance. -/
structure IndoorNavigation where
  graph : NavigationGraph
  pois : List (String × PoiInfo)
  rooms : List (String × RoomInfo)
deriving Repr, DecidableEq

/-- `_resolve_location`: a navigation node id resolves to itself; otherwise
a POI with a non-empty access list resolves to its first access node;
otherwise a room with a non-empty access list resolves to its first access
node; otherwise resolution fails. -/
def IndoorNavigation.resolve_location (nav : IndoorNavigation) (location : String) :
    Option String :=
  if location ∈ nav.graph.nodes then some location
  else
    match
      (match dictFind nav.pois location with
       | some info => info.access_nodes.head?
       | none => none)
    with
    | some a => some a
    | none =>
      match dictFind nav.rooms location with
      | some info => info.access_nodes.head?
      | none => none

/-- The route dictionary returned by `navigate`. -/
structure RouteResult where
  start : String
  «end» : String
  start_node : String
  end_node : String
  path : List String
  distance : W
  instructions : List Instruction
  num_steps : ℕ
deriving Repr, DecidableEq

/-- `navigate`: resolve both endpoints (an empty-string resolution is falsy
in the source and counts as a failure), search, then assemble the result.
A falsy (empty) path also gives `None`. -/
def IndoorNavigation.navigate (nav : IndoorNavigation) (start «end» : String) :
    Option RouteResult :=
  match nav.resolve_location start, nav.resolve_location «end» with
  | some start_node, some end_node =>
    if start_node = "" ∨ end_node = "" then none
    else
      match nav.graph.find_path start_node end_node with
      | none => none
      | some path =>
        if path = [] then none
        else
          let instructions := nav.graph.get_path_instructions path
          some
            { start := start, «end» := «end», start_node := start_node,
              end_node := end_node, path := path,
              distance := nav.graph.get_distance start_node end_node,
              instructions := instructions, num_steps := instructions.length }
  | _, _ => none

/-- One entry of the nearby-POI report. -/
structure NearbyPoi where
  id : String
  name : String
  ptype : String
  distance : W
deriving Repr, DecidableEq

/-- `nearby.sort(key=lambda x: x['distance'])`. -/
def sortNearby (l : List NearbyPoi) : List NearbyPoi :=
  l.insertionSort (fun x y => x.distance ≤ y.distance)

/-- `get_nearby_pois`: every POI whose resolution is truthy and whose
matrix distance from the resolved start is within `max_distance`, sorted
ascending by that distance. -/
def IndoorNavigation.get_nearby_pois (nav : IndoorNavigation) (location : String)
    (max_distance : ℚ) : List NearbyPoi :=
  match nav.resolve_location location with
  | none => []
  | some start_node =>
    if start_node = "" then []
    else
      sortNearby <| nav.pois.filterMap fun pair =>
        match nav.resolve_location pair.1 with
        | none => none
        | some poi_node =>
          if poi_node = "" then none
          else
            let distance := nav.graph.get_distance start_node poi_node
            if distance ≤ ↑max_distance then
              some { id := pair.1, name := pair.2.name, ptype := pair.2.ptype,
                     distance := distance }
            else none

/-! ## Loading (`_load_from_geojson` and `_load_pois_and_rooms`)

The spec treats file parsing as an external collaborator that supplies
already-parsed feature records; a record models the property dictionary of
one GeoJSON feature, with absent keys as `none`. -/

/-- A parsed feature record. -/
structure FeatureRec where
  ftype : Option String
  id : Option String
  coordinates : Option (ℚ × ℚ)
  floor : Option Int
  rotation : Option String
  index : Option Int
  inct : Option String
  start_node : Option String
  end_node : Option String
  distance : Option ℚ
  bidirectional : Option Bool
  weight : Option ℚ
  name : Option String
  vertex_id : Option String
deriving Repr, DecidableEq

/-- Insert into a dictionary: overwriting an existing key keeps its
position, a fresh key is appended. -/
def dictInsert {A : Type} (d : List (String × A)) (k : String) (v : A) :
    List (String × A) :=
  if d.any (fun p => p.1 = k) then
    d.map (fun p => if p.1 = k then (k, v) else p)
  else d ++ [(k, v)]

/-- First pass of `_load_from_geojson`: load every `point` feature as a
navigation node.  A `point` feature without an id or coordinates makes the
source raise, modelled as `none`. -/
def loadNodesStep (acc : List (String × NavigationNode)) (f : FeatureRec) :
    Option (List (String × NavigationNode)) :=
  if f.ftype = some "point" then
    match f.id, f.coordinates with
    | some node_id, some coords =>
      some (dictInsert acc node_id
        { id := node_id, position := coords, floor := f.floor.getD 1,
          rotation := f.rotation.getD "0,1", index := f.index.getD 0,
          inct := f.inct })
    | _, _ => none
  else some acc

/-- The node dictionary after the first pass. -/
def loadNodes (fs : List FeatureRec) : Option (List (String × NavigationNode)) :=
  fs.foldlM loadNodesStep []

/-- Second pass of `_load_from_geojson`: accept an `edge` feature when both
endpoint ids are non-empty and name loaded nodes; skip it (with a warning
in the source) otherwise.  The auto-assigned fallback id numbers the edges
accepted so far. -/
def loadEdgesStep (nodeIds : List String) (acc : List NavigationEdge) (f : FeatureRec) :
    List NavigationEdge :=
  if f.ftype = some "edge" then
    let edge_id := f.id.getD ("edge_" ++ toString acc.length)
    let start_node := f.start_node.getD ""
    let end_node := f.end_node.getD ""
    if start_node = "" ∨ end_node = "" then acc
    else if start_node ∉ nodeIds ∨ end_node ∉ nodeIds then acc
    else
      acc ++ [{ id := edge_id, start := start_node, «end» := end_node,
                distance := f.distance.getD 0,
                bidirectional := f.bidirectional.getD true,
                weight := f.weight.getD (f.distance.getD 0),
                floor := f.floor.getD 1 }]
  else acc

/-- The accepted edge list after the second pass. -/
def loadEdges (nodeIds : List String) (fs : List FeatureRec) : List NavigationEdge :=
  fs.foldl (loadEdgesStep nodeIds) []

/-- `NavigationGraph.__init__` up to the derived structures: nodes first,
then the edges validated against the complete node set. -/
def NavigationGraph.load (fs : List FeatureRec) : Option NavigationGraph :=
  (loadNodes fs).map fun nd =>
    { nodes := nd.map (fun p => p.1), edges := loadEdges (nd.map (fun p => p.1)) fs }

/-- The feature types recognised as POIs. -/
def poiTypes : List String := ["elevator", "stair", "men_toilet", "women_toilet", "poi"]

/-- `vertex_id.split(';') if vertex_id else []`. -/
def splitVertex (v : String) : List String :=
  if v = "" then [] else v.splitOn ";"

/-- `_load_pois_and_rooms`, one feature at a time. -/
def loadPoisRoomsStep (acc : List (String × PoiInfo) × List (String × RoomInfo))
    (f : FeatureRec) :
    Option (List (String × PoiInfo) × List (String × RoomInfo)) :=
  match f.ftype with
  | none => some acc
  | some t =>
    if t ∈ poiTypes then
      match f.id with
      | some poi_id =>
        some (dictInsert acc.1 poi_id
          { name := f.name.getD poi_id, ptype := t, floor := f.floor.getD 1,
            access_nodes := splitVertex (f.vertex_id.getD "") }, acc.2)
      | none => none
    else if t = "room" then
      match f.id with
      | some room_id =>
        some (acc.1, dictInsert acc.2 room_id
          { name := f.name.getD room_id, floor := f.floor.getD 1,
            access_nodes := splitVertex (f.vertex_id.getD "") })
      | none => none
    else some acc

/-- The POI and room dictionaries of `IndoorNavigation.__init__`. -/
def loadPoisRooms (fs : List FeatureRec) :
    Option (List (String × PoiInfo) × List (String × RoomInfo)) :=
  fs.foldlM loadPoisRoomsStep ([], [])

/-- `IndoorNavigation.__init__`: the graph plus the POI and room dictionaries,
all from the same feature collection. -/
def IndoorNavigation.load (fs : List FeatureRec) : Option IndoorNavigation :=
  match NavigationGraph.load fs, loadPoisRooms fs with
  | some g, some pr => some { graph := g, pois := pr.1, rooms := pr.2 }
  | _, _ => none

/-! ## Derived notions used to state the matrix / search agreement -/

/-- The directed arcs contributed by one edge: the forward arc always, the
backward arc additionally when the edge is bidirectional. -/
def arcsOfEdge (e : NavigationEdge) : List (String × String × ℚ) :=
  (e.start, e.«end», e.weight) ::
    (if e.bidirectional = true then [(e.«end», e.start, e.weight)] else [])

/-- Any two arcs between the same ordered pair of nodes carry the same
weight.  Under this condition the last matrix write for a cell, and the
least adjacency entry for the pair, agree. -/
def ArcConsistent (E : List NavigationEdge) : Prop :=
  ∀ e1 ∈ E, ∀ e2 ∈ E, ∀ a1 ∈ arcsOfEdge e1, ∀ a2 ∈ arcsOfEdge e2,
    a1.1 = a2.1 → a1.2.1 = a2.2.1 → a1.2.2 = a2.2.2

/-- The node id sitting at a given index of the canonical ordering. -/
def NavigationGraph.nodeAt (g : NavigationGraph) (k : ℕ) : String :=
  g.sortedNodes.getD k ""

/-- Collapse adjacent duplicate vertices of a sequence. -/
def dedupAdj {α : Type} [DecidableEq α] : List α → List α
  | [] => []
  | [a] => [a]
  | a :: b :: r => if a = b then dedupAdj (b :: r) else a :: dedupAdj (b :: r)

/-- The invariant maintained by the search loop, for graph `g` and start
node `s`. -/
structure DInv (g : NavigationGraph) (s : String) (st : DState) : Prop where
  sub : ∀ v ∈ st.unvisited, v ∈ g.nodes
  nodup : st.unvisited.Nodup
  nonneg : ∀ v, 0 ≤ st.dist v
  dist_s : st.dist s = 0
  relaxed : ∀ u ∈ g.nodes, u ∉ st.unvisited → ∀ v ∈ g.nodes,
    st.dist v ≤ st.dist u + arcW g.edges u v
  mono : ∀ u ∈ g.nodes, u ∉ st.unvisited → ∀ x ∈ st.unvisited, st.dist u ≤ st.dist x
  prev_spec : ∀ v u, st.prev v = some u →
    u ∈ g.nodes ∧ u ∉ st.unvisited ∧ st.dist v = st.dist u + arcW g.edges u v
  prev_none : ∀ v, st.dist v ≠ ⊤ → st.prev v = none → v = s
  ghost : ∃ (f : String → ℕ) (K : ℕ), K + st.unvisited.length ≤ g.nodes.length ∧
    (∀ v ∈ st.unvisited, f v = K) ∧
    (∀ v u, st.prev v = some u → f u < f v ∧ f v ≤ K)

/-! ## Arithmetic helpers on `W` -/

theorem W.coe_add_coe (a b : ℚ) : ((a : ℚ) : W) + ((b : ℚ) : W) = ((a + b : ℚ) : W) :=
  (WithTop.coe_add a b).symm

theorem W.zero_lt_top : (0 : W) < ⊤ := WithTop.coe_lt_top 0

theorem W.coe_lt_zero (a : ℚ) : (((a : ℚ) : W) < 0) ↔ a < 0 := WithTop.coe_lt_coe

theorem W.zero_lt_coe (a : ℚ) : ((0 : W) < ((a : ℚ) : W)) ↔ 0 < a := WithTop.coe_lt_coe

theorem W.coe_le_zero (a : ℚ) : (((a : ℚ) : W) ≤ 0) ↔ a ≤ 0 := WithTop.coe_le_coe

theorem W.zero_le_coe (a : ℚ) : ((0 : W) ≤ ((a : ℚ) : W)) ↔ 0 ≤ a := WithTop.coe_le_coe

theorem W.zero_ne_top : (0 : W) ≠ ⊤ := WithTop.coe_ne_top

theorem W.top_ne_zero : (⊤ : W) ≠ 0 := WithTop.top_ne_coe

/-! ## Concrete states used by the scenario claims and the refutations -/

/-- The scenario graph of the spec: `a1-a2` bidirectional, `a2→b1` one-way,
both of distance and weight `10`. -/
def demo2 : NavigationGraph :=
  { nodes := ["a1", "a2", "b1"],
    edges := [
      { id := "e1", start := "a1", «end» := "a2", distance := 10,
        bidirectional := true, weight := 10, floor := 1 },
      { id := "e2", start := "a2", «end» := "b1", distance := 10,
        bidirectional := false, weight := 10, floor := 1 }] }

/-- A graph with one node and a self-loop edge of weight `1`. -/
def gLoop : NavigationGraph :=
  { nodes := ["a"],
    edges := [
      { id := "s", start := "a", «end» := "a", distance := 1,
        bidirectional := true, weight := 1, floor := 1 }] }

/-- A graph with two parallel one-way edges from `a` to `b`, the later one
heavier. -/
def gPar : NavigationGraph :=
  { nodes := ["a", "b"],
    edges := [
      { id := "p1", start := "a", «end» := "b", distance := 5,
        bidirectional := false, weight := 5, floor := 1 },
      { id := "p2", start := "a", «end» := "b", distance := 10,
        bidirectional := false, weight := 10, floor := 1 }] }

/-- A graph whose physical distances are all non-negative but which carries
negative weight overrides on the `x→m→y` chain. -/
def gNeg : NavigationGraph :=
  { nodes := ["w", "x", "m", "y"],
    edges := [
      { id := "n1", start := "w", «end» := "x", distance := 5,
        bidirectional := true, weight := 5, floor := 1 },
      { id := "n2", start := "x", «end» := "m", distance := 5,
        bidirectional := false, weight := -3, floor := 1 },
      { id := "n3", start := "m", «end» := "y", distance := 5,
        bidirectional := false, weight := -3, floor := 1 }] }

/-- A navigation state over `demo2` in which the POI dictionary shadows the
node id `a1`, the POI `p0` has an empty access list while a room of the
same name has a non-empty one, and the id `p1` names both a POI and a
room. -/
def navDemo : IndoorNavigation :=
  { graph := demo2,
    pois := [("a1", { name := "overlap", ptype := "poi", floor := 1, access_nodes := ["b1"] }),
             ("p1", { name := "Lift", ptype := "elevator", floor := 1, access_nodes := ["a2"] }),
             ("p0", { name := "Empty", ptype := "poi", floor := 1, access_nodes := [] })],
    rooms := [("p1", { name := "shadow", floor := 1, access_nodes := ["b1"] }),
              ("p0", { name := "room p0", floor := 1, access_nodes := ["b1", "a1"] }),
              ("r9", { name := "noacc", floor := 1, access_nodes := [] })] }

/-! ## Concrete evaluations -/

set_option maxRecDepth 100000

theorem demo2_sortedNodes : demo2.sortedNodes = ["a1", "a2", "b1"] := by
  simp +decide [demo2, NavigationGraph.sortedNodes, sortIds, List.insertionSort,
    List.orderedInsert, strLe, lexLe]

theorem demo2_initMatrix :
    demo2.initMatrix = [[0, ((10:ℚ):W), ⊤], [((10:ℚ):W), 0, ((10:ℚ):W)], [⊤, ⊤, 0]] := by
  simp +decide [demo2, NavigationGraph.initMatrix, NavigationGraph.sortedNodes, sortIds,
    List.insertionSort, List.orderedInsert, strLe, lexLe, NavigationGraph.nodeIndex,
    List.indexOf_cons, edgeWrites, zeroDiag, matUpdate, matGet, List.set, List.getD,
    List.replicate]

theorem demo2_matrix :
    demo2.matrix = [[0, ((10:ℚ):W), ((20:ℚ):W)], [((10:ℚ):W), 0, ((10:ℚ):W)], [⊤, ⊤, 0]] := by
  have hn : demo2.sortedNodes.length = 3 := by rw [demo2_sortedNodes]; rfl
  rw [NavigationGraph.matrix, hn, demo2_initMatrix]
  norm_num only [floydWarshallN, fwK, fwI, fwJ, fwRelax, matUpdate, matGet,
    List.set_cons_zero, List.set_cons_succ, List.getD_cons_zero, List.getD_cons_succ,
    W.coe_add_coe, W.zero_lt_top, W.coe_lt_zero, W.zero_lt_coe, WithTop.coe_lt_coe,
    WithTop.coe_lt_top, not_top_lt, WithTop.add_top, WithTop.top_add, add_zero,
    zero_add, lt_self_iff_false, ite_true, ite_false, if_true, if_false]

theorem demo2_get : demo2.get_distance "a1" "b1" = ((20:ℚ):W) := by
  rw [NavigationGraph.get_distance, if_pos]
  · have h1 : demo2.nodeIndex "a1" = 0 := by
      simp +decide [NavigationGraph.nodeIndex, demo2_sortedNodes, List.indexOf_cons]
    have h2 : demo2.nodeIndex "b1" = 2 := by
      simp +decide [NavigationGraph.nodeIndex, demo2_sortedNodes, List.indexOf_cons]
    rw [h1, h2, demo2_matrix]
    simp [matGet, List.getD]
  · rw [demo2_sortedNodes]; constructor <;> simp

theorem demo2_path : demo2.find_path "a1" "b1" = some ["a1", "a2", "b1"] := by
  rw [NavigationGraph.find_path, if_pos, if_neg]
  · norm_num +decide only [dijkstraLoop, dijkstraInit, selectMin, relaxFold, relaxEntry,
      adjacencyOf, walkBack, demo2, List.erase, List.flatMap_cons, List.flatMap_nil,
      List.foldl_cons, List.foldl_nil, List.cons_append, List.nil_append,
      List.mem_cons, List.not_mem_nil, List.length_cons, List.length_nil,
      or_false, false_or, or_true, true_or, ne_eq, not_false_iff, not_true,
      W.coe_add_coe, W.zero_lt_top, W.coe_lt_zero, W.zero_lt_coe, WithTop.coe_lt_coe,
      WithTop.coe_lt_top, not_top_lt, WithTop.add_top, WithTop.top_add, add_zero,
      zero_add, lt_self_iff_false, ite_true, ite_false, if_true, if_false,
      WithTop.coe_ne_top, WithTop.top_ne_coe]
  · norm_num +decide only []
  · constructor <;> norm_num +decide only [demo2, List.mem_cons, List.not_mem_nil,
      or_false, false_or, or_true, true_or]

theorem demo2_nopath : demo2.find_path "b1" "a1" = none := by
  rw [NavigationGraph.find_path, if_pos, if_neg]
  · norm_num +decide only [dijkstraLoop, dijkstraInit, selectMin, relaxFold, relaxEntry,
      adjacencyOf, walkBack, demo2, List.erase, List.flatMap_cons, List.flatMap_nil,
      List.foldl_cons, List.foldl_nil, List.cons_append, List.nil_append,
      List.mem_cons, List.not_mem_nil, List.length_cons, List.length_nil,
      or_false, false_or, or_true, true_or, ne_eq, not_false_iff, not_true,
      W.coe_add_coe, W.zero_lt_top, W.coe_lt_zero, W.zero_lt_coe, WithTop.coe_lt_coe,
      WithTop.coe_lt_top, not_top_lt, WithTop.add_top, WithTop.top_add, add_zero,
      zero_add, lt_self_iff_false, ite_true, ite_false, if_true, if_false,
      WithTop.coe_ne_top, WithTop.top_ne_coe]
  · norm_num +decide only []
  · constructor <;> norm_num +decide only [demo2, List.mem_cons, List.not_mem_nil,
      or_false, false_or, or_true, true_or]

theorem demo2_pathW : pathW demo2 ["a1", "a2", "b1"] = ((20:ℚ):W) := by
  norm_num +decide only [pathW, wcost, arcW, entryMin, adjacencyOf, demo2,
    List.flatMap_cons, List.flatMap_nil, List.cons_append, List.nil_append,
    List.filter_cons, List.filter_nil, List.foldr_cons, List.foldr_nil,
    ite_true, ite_false, if_true, if_false, W.coe_add_coe,
    min_top_right, min_top_left, add_zero, zero_add]

theorem gLoop_get : gLoop.get_distance "a" "a" = ((1:ℚ):W) := by
  have hs : gLoop.sortedNodes = ["a"] := by
    simp +decide [gLoop, NavigationGraph.sortedNodes, sortIds, List.insertionSort,
      List.orderedInsert]
  have hinit : gLoop.initMatrix = [[((1:ℚ):W)]] := by
    simp +decide [gLoop, NavigationGraph.initMatrix, NavigationGraph.sortedNodes, sortIds,
      List.insertionSort, List.orderedInsert, NavigationGraph.nodeIndex,
      List.indexOf_cons, edgeWrites, zeroDiag, matUpdate, matGet, List.set, List.getD,
      List.replicate]
  rw [NavigationGraph.get_distance, if_pos]
  · have h1 : gLoop.nodeIndex "a" = 0 := by
      simp +decide [NavigationGraph.nodeIndex, hs, List.indexOf_cons]
    rw [h1, NavigationGraph.matrix, hs, hinit]
    norm_num only [floydWarshallN, fwK, fwI, fwJ, fwRelax, matUpdate, matGet,
      List.set_cons_zero, List.set_cons_succ, List.getD_cons_zero, List.getD_cons_succ,
      List.length_cons, List.length_nil, W.coe_add_coe, WithTop.coe_lt_coe,
      ite_true, ite_false, if_true, if_false]
  · rw [hs]; constructor <;> simp

theorem gLoop_path : gLoop.find_path "a" "a" = some ["a"] := by
  rw [NavigationGraph.find_path, if_pos, if_pos rfl]
  constructor <;> simp [gLoop]

theorem gPar_matrix : gPar.matrix = [[0, ((10:ℚ):W)], [⊤, 0]] := by
  have hs : gPar.sortedNodes = ["a", "b"] := by
    simp +decide [gPar, NavigationGraph.sortedNodes, sortIds, List.insertionSort,
      List.orderedInsert, strLe, lexLe]
  have hn : gPar.sortedNodes.length = 2 := by rw [hs]; rfl
  have hinit : gPar.initMatrix = [[0, ((10:ℚ):W)], [⊤, 0]] := by
    simp +decide [gPar, NavigationGraph.initMatrix, NavigationGraph.sortedNodes, sortIds,
      List.insertionSort, List.orderedInsert, strLe, lexLe, NavigationGraph.nodeIndex,
      List.indexOf_cons, edgeWrites, zeroDiag, matUpdate, matGet, List.set, List.getD,
      List.replicate]
  rw [NavigationGraph.matrix, hn, hinit]
  norm_num only [floydWarshallN, fwK, fwI, fwJ, fwRelax, matUpdate, matGet,
    List.set_cons_zero, List.set_cons_succ, List.getD_cons_zero, List.getD_cons_succ,
    W.coe_add_coe, W.zero_lt_top, W.coe_lt_zero, W.zero_lt_coe, WithTop.coe_lt_coe,
    WithTop.coe_lt_top, not_top_lt, WithTop.add_top, WithTop.top_add, add_zero,
    zero_add, lt_self_iff_false, ite_true, ite_false, if_true, if_false]

theorem gPar_get : gPar.get_distance "a" "b" = ((10:ℚ):W) := by
  have hs : gPar.sortedNodes = ["a", "b"] := by
    simp +decide [gPar, NavigationGraph.sortedNodes, sortIds, List.insertionSort,
      List.orderedInsert, strLe, lexLe]
  rw [NavigationGraph.get_distance, if_pos]
  · have h1 : gPar.nodeIndex "a" = 0 := by
      simp +decide [NavigationGraph.nodeIndex, hs, List.indexOf_cons]
    have h2 : gPar.nodeIndex "b" = 1 := by
      simp +decide [NavigationGraph.nodeIndex, hs, List.indexOf_cons]
    rw [h1, h2, gPar_matrix]
    simp [matGet, List.getD]
  · rw [hs]; constructor <;> simp

theorem gPar_path : gPar.find_path "a" "b" = some ["a", "b"] := by
  rw [NavigationGraph.find_path, if_pos, if_neg]
  · norm_num +decide only [dijkstraLoop, dijkstraInit, selectMin, relaxFold, relaxEntry,
      adjacencyOf, walkBack, gPar, List.erase, List.flatMap_cons, List.flatMap_nil,
      List.foldl_cons, List.foldl_nil, List.cons_append, List.nil_append,
      List.mem_cons, List.not_mem_nil, List.length_cons, List.length_nil,
      or_false, false_or, or_true, true_or, ne_eq, not_false_iff, not_true,
      W.coe_add_coe, W.zero_lt_top, W.coe_lt_zero, W.zero_lt_coe, WithTop.coe_lt_coe,
      WithTop.coe_lt_top, not_top_lt, WithTop.add_top, WithTop.top_add, add_zero,
      zero_add, lt_self_iff_false, ite_true, ite_false, if_true, if_false,
      WithTop.coe_ne_top, WithTop.top_ne_coe]
  · norm_num +decide only []
  · constructor <;> norm_num +decide only [gPar, List.mem_cons, List.not_mem_nil,
      or_false, false_or, or_true, true_or]

theorem gPar_pathW : pathW gPar ["a", "b"] = ((5:ℚ):W) := by
  norm_num +decide only [pathW, wcost, arcW, entryMin, adjacencyOf, gPar,
    List.flatMap_cons, List.flatMap_nil, List.cons_append, List.nil_append,
    List.filter_cons, List.filter_nil, List.foldr_cons, List.foldr_nil,
    ite_true, ite_false, if_true, if_false, W.coe_add_coe, min_top_right,
    min_top_left, add_zero, zero_add, WithTop.coe_min, WithTop.coe_le_coe, min_def]

theorem gNeg_sortedNodes : gNeg.sortedNodes = ["m", "w", "x", "y"] := by
  simp +decide [gNeg, NavigationGraph.sortedNodes, sortIds, List.insertionSort,
    List.orderedInsert, strLe, lexLe]

theorem gNeg_get : gNeg.get_distance "x" "y" = ((-6:ℚ):W) := by
  have hn : gNeg.sortedNodes.length = 4 := by rw [gNeg_sortedNodes]; rfl
  have hinit : gNeg.initMatrix =
      [[0, ⊤, ⊤, ((-3:ℚ):W)],
       [⊤, 0, ((5:ℚ):W), ⊤],
       [((-3:ℚ):W), ((5:ℚ):W), 0, ⊤],
       [⊤, ⊤, ⊤, 0]] := by
    simp +decide [gNeg, NavigationGraph.initMatrix, NavigationGraph.sortedNodes, sortIds,
      List.insertionSort, List.orderedInsert, strLe, lexLe, NavigationGraph.nodeIndex,
      List.indexOf_cons, edgeWrites, zeroDiag, matUpdate, matGet, List.set, List.getD,
      List.replicate]
  rw [NavigationGraph.get_distance, if_pos]
  · have h1 : gNeg.nodeIndex "x" = 2 := by
      simp +decide [NavigationGraph.nodeIndex, gNeg_sortedNodes, List.indexOf_cons]
    have h2 : gNeg.nodeIndex "y" = 3 := by
      simp +decide [NavigationGraph.nodeIndex, gNeg_sortedNodes, List.indexOf_cons]
    rw [h1, h2, NavigationGraph.matrix, hn, hinit]
    norm_num only [floydWarshallN, fwK, fwI, fwJ, fwRelax, matUpdate, matGet,
      List.set_cons_zero, List.set_cons_succ, List.getD_cons_zero, List.getD_cons_succ,
      W.coe_add_coe, W.zero_lt_top, W.coe_lt_zero, W.zero_lt_coe, WithTop.coe_lt_coe,
      WithTop.coe_lt_top, not_top_lt, WithTop.add_top, WithTop.top_add, add_zero,
      zero_add, lt_self_iff_false, ite_true, ite_false, if_true, if_false]
  · rw [gNeg_sortedNodes]; constructor <;> simp

theorem gNeg_instructions :
    (gNeg.get_path_instructions ["w", "x", "y"]).map (fun i => i.cumulative_distance) =
      [((5:ℚ):W), ((-1:ℚ):W)] := by
  have hstep1 : gNeg.stepDistance "w" "x" = ((5:ℚ):W) := by
    norm_num +decide only [NavigationGraph.stepDistance, gNeg, List.find?]
  have hstep2 : gNeg.stepDistance "x" "y" = ((-6:ℚ):W) := by
    rw [NavigationGraph.stepDistance]
    have hfind : gNeg.edges.find? (fun e =>
        (e.start = "x" ∧ e.«end» = "y") ∨
        (e.bidirectional = true ∧ e.start = "y" ∧ e.«end» = "x")) = none := by
      norm_num +decide only [gNeg, List.find?]
    rw [hfind, gNeg_get]
  rw [NavigationGraph.get_path_instructions, if_neg (by simp)]
  rw [instrGo, instrGo, instrGo]
  rw [hstep1, hstep2]
  norm_num only [List.map_cons, List.map_nil, zero_add, W.coe_add_coe]

theorem navDemo_resolve_node : navDemo.resolve_location "a1" = some "a1" := by
  simp +decide [navDemo, demo2, IndoorNavigation.resolve_location]

theorem navDemo_resolve_poi : navDemo.resolve_location "p1" = some "a2" := by
  simp +decide [navDemo, demo2, IndoorNavigation.resolve_location, dictFind, List.find?]

theorem navDemo_resolve_empty_poi : navDemo.resolve_location "p0" = some "b1" := by
  simp +decide [navDemo, demo2, IndoorNavigation.resolve_location, dictFind, List.find?]

theorem navDemo_resolve_empty_room : navDemo.resolve_location "r9" = none := by
  simp +decide [navDemo, demo2, IndoorNavigation.resolve_location, dictFind, List.find?]

/-! ## Adjacency characterization -/

theorem mem_ite_list {α : Type} {c : Prop} [Decidable c] {a : α} {l : List α} :
    (a ∈ if c then l else []) ↔ c ∧ a ∈ l := by
  split <;> simp_all

theorem adjacencyOf_mem_iff (edges : List NavigationEdge) (u v : String) (w : ℚ) :
    (v, w) ∈ adjacencyOf edges u ↔
      ∃ e ∈ edges, (e.start = u ∧ e.«end» = v ∧ e.weight = w) ∨
        (e.bidirectional = true ∧ e.«end» = u ∧ e.start = v ∧ e.weight = w) := by
  simp only [adjacencyOf, List.mem_flatMap, List.mem_append, mem_ite_list,
    List.mem_singleton, Prod.mk.injEq]
  constructor
  · rintro ⟨e, he, ⟨h1, h2, h3⟩ | ⟨h1, h2, h3⟩⟩
    · exact ⟨e, he, Or.inl ⟨h1, h2.symm, h3.symm⟩⟩
    · exact ⟨e, he, Or.inr ⟨h1.1, h1.2, h2.symm, h3.symm⟩⟩
  · rintro ⟨e, he, ⟨h1, h2, h3⟩ | ⟨h1, h2, h3, h4⟩⟩
    · exact ⟨e, he, Or.inl ⟨h1, h2.symm, h3.symm⟩⟩
    · exact ⟨e, he, Or.inr ⟨⟨h1, h2⟩, h3.symm, h4.symm⟩⟩

/-- C2: on the scenario graph (`a1-a2` bidirectional distance 10, `a2→b1`
one-way distance 10), `find_path(a1,b1)` is `[a1,a2,b1]` with total
distance 20, `find_path(b1,a1)` is absent, and in general an adjacency
entry arises only from the forward direction of an edge or from the
backward direction of a bidirectional edge, so a one-way edge never
produces a reverse adjacency entry. -/
theorem C2_one_way_scenario :
    demo2.find_path "a1" "b1" = some ["a1", "a2", "b1"] ∧
    demo2.get_distance "a1" "b1" = ((20:ℚ):W) ∧
    pathW demo2 ["a1", "a2", "b1"] = ((20:ℚ):W) ∧
    demo2.find_path "b1" "a1" = none ∧
    (∀ (edges : List NavigationEdge) (u v : String) (w : ℚ),
      (v, w) ∈ adjacencyOf edges u ↔
        ∃ e ∈ edges, (e.start = u ∧ e.«end» = v ∧ e.weight = w) ∨
          (e.bidirectional = true ∧ e.«end» = u ∧ e.start = v ∧ e.weight = w)) :=
  ⟨demo2_path, demo2_get, demo2_pathW, demo2_nopath, adjacencyOf_mem_iff⟩

/-- C9: `find_path` returns an absent result whenever either endpoint is
not a loaded node; the guard precedes the start-equals-end shortcut, so
this includes `find_path(x, x)` for unknown `x`. -/
theorem C9_unknown_ids (g : NavigationGraph) (s e : String)
    (h : s ∉ g.nodes ∨ e ∉ g.nodes) : g.find_path s e = none := by
  rw [NavigationGraph.find_path, if_neg]
  rintro ⟨h1, h2⟩
  rcases h with h | h <;> exact h (by assumption)

theorem C9_unknown_ids_witness : demo2.find_path "zz" "zz" = none :=
  C9_unknown_ids demo2 "zz" "zz" (Or.inl (by decide))

/-- C4: an identifier that is a navigation node id always resolves to
itself, whatever the POI and room dictionaries contain; and for
identifiers that are not node ids the POI lookup is consulted before the
room lookup (a POI match with a non-empty access list wins even when a
room of the same name exists). -/
theorem C4_node_precedence (nav : IndoorNavigation) (L : String) :
    (L ∈ nav.graph.nodes → nav.resolve_location L = some L) ∧
    (L ∉ nav.graph.nodes →
      ∀ (info : PoiInfo) (a : String) (rest : List String),
        dictFind nav.pois L = some info → info.access_nodes = a :: rest →
        nav.resolve_location L = some a) := by
  constructor
  · intro h
    rw [IndoorNavigation.resolve_location, if_pos h]
  · intro h info a rest hfind hacc
    rw [IndoorNavigation.resolve_location, if_neg h, hfind]
    simp [hacc]

theorem C4_node_precedence_witness :
    navDemo.resolve_location "a1" = some "a1" ∧
    navDemo.resolve_location "p1" = some "a2" :=
  ⟨(C4_node_precedence navDemo "a1").1 (by decide),
   (C4_node_precedence navDemo "p1").2 (by decide)
     { name := "Lift", ptype := "elevator", floor := 1, access_nodes := ["a2"] }
     "a2" [] (by decide) rfl⟩

/-- C10: when an identifier is not a node id and matches a POI whose
access-node list is empty, resolution does not stop there: it falls
through to the room lookup, returning the first access node of a matching
room when that list is non-empty and an absent result only when every
step yields no node. -/
theorem C10_resolver_fallthrough (nav : IndoorNavigation) (L : String)
    (hn : L ∉ nav.graph.nodes) (pinfo : PoiInfo)
    (hp : dictFind nav.pois L = some pinfo) (he : pinfo.access_nodes = []) :
    nav.resolve_location L =
      (match dictFind nav.rooms L with
       | some rinfo => rinfo.access_nodes.head?
       | none => none) := by
  rw [IndoorNavigation.resolve_location, if_neg hn, hp]
  simp [he]

theorem C10_resolver_fallthrough_witness :
    navDemo.resolve_location "p0" = some "b1" := by
  have h := C10_resolver_fallthrough navDemo "p0" (by decide)
    { name := "Empty", ptype := "poi", floor := 1, access_nodes := [] }
    (by decide) rfl
  rw [h]
  decide

/-- C5 fails as stated: a self-loop edge is accepted by the loader and its
weight overwrites the zero diagonal cell before the closure runs, so on
`gLoop` (non-negative weights, node `a` with a weight-1 self-loop) the
matrix distance from `a` to itself is 1, not 0. -/
theorem C5_counterexample :
    (∀ e ∈ gLoop.edges, 0 ≤ e.weight) ∧ "a" ∈ gLoop.nodes ∧
    gLoop.get_distance "a" "a" = ((1:ℚ):W) ∧ gLoop.get_distance "a" "a" ≠ 0 := by
  refine ⟨by decide, by decide, gLoop_get, ?_⟩
  rw [gLoop_get]
  decide

/-- C7 fails as stated on the same self-loop graph: the single-element
path is returned, but the matrix distance of the pair `(a, a)` is 1. -/
theorem C7_counterexample :
    gLoop.find_path "a" "a" = some ["a"] ∧ gLoop.get_distance "a" "a" ≠ 0 := by
  refine ⟨gLoop_path, ?_⟩
  rw [gLoop_get]
  decide

/-- C1 fails as stated: with two parallel one-way edges `a→b` of weights 5
and 10 (all weights non-negative), the matrix fill overwrites the cell
with the later weight 10, while the search traverses the cheaper entry;
`find_path` returns `[a, b]` whose edge-weight total is 5, but
`get_distance` reports 10. -/
theorem C1_counterexample :
    (∀ e ∈ gPar.edges, 0 ≤ e.weight) ∧
    gPar.find_path "a" "b" = some ["a", "b"] ∧
    gPar.get_distance "a" "b" = ((10:ℚ):W) ∧
    pathW gPar ["a", "b"] = ((5:ℚ):W) ∧
    gPar.get_distance "a" "b" ≠ pathW gPar ["a", "b"] := by
  refine ⟨by decide, gPar_path, gPar_get, gPar_pathW, ?_⟩
  rw [gPar_get, gPar_pathW]
  decide

/-- C3 fails as stated: all physical edge distances of `gNeg` are
non-negative, yet on the sequence `[w, x, y]` the second step has no
matching edge record, the fall back to the weight matrix returns the
negative weight-based distance −6, and the cumulative values `[5, −1]`
decrease. -/
theorem C3_counterexample :
    (∀ e ∈ gNeg.edges, 0 ≤ e.distance) ∧
    (["w", "x", "y"] : List String).length ≥ 2 ∧
    ¬ List.Chain' (· ≤ ·)
        ((gNeg.get_path_instructions ["w", "x", "y"]).map
          (fun i => i.cumulative_distance)) := by
  refine ⟨by decide, by decide, ?_⟩
  rw [gNeg_instructions]
  simp only [List.chain'_cons, List.chain'_singleton, and_true, WithTop.coe_le_coe]
  norm_num

/-! ## Loader lemmas (claim C6) -/

theorem loadNodesStep_not_point {f : FeatureRec} (hf : ¬ f.ftype = some "point")
    (acc : List (String × NavigationNode)) : loadNodesStep acc f = some acc := by
  rw [loadNodesStep, if_neg hf]

theorem foldlM_loadNodes_skip {f : FeatureRec} (hf : ¬ f.ftype = some "point") :
    ∀ (xs ys : List FeatureRec) (init : List (String × NavigationNode)),
      (xs ++ f :: ys).foldlM loadNodesStep init = (xs ++ ys).foldlM loadNodesStep init := by
  intro xs
  induction xs with
  | nil =>
    intro ys init
    rw [List.nil_append, List.nil_append, List.foldlM_cons, loadNodesStep_not_point hf]
    rfl
  | cons x xs ih =>
    intro ys init
    rw [List.cons_append, List.cons_append, List.foldlM_cons, List.foldlM_cons]
    cases loadNodesStep init x with
    | none => rfl
    | some b => exact ih ys b

theorem loadNodes_insert_skip (xs ys : List FeatureRec) {f : FeatureRec}
    (hf : ¬ f.ftype = some "point") :
    loadNodes (xs ++ f :: ys) = loadNodes (xs ++ ys) :=
  foldlM_loadNodes_skip hf xs ys []

theorem loadEdgesStep_invalid {nodeIds : List String} {f : FeatureRec}
    (hbad : f.start_node.getD "" = "" ∨ f.end_node.getD "" = "" ∨
      f.start_node.getD "" ∉ nodeIds ∨ f.end_node.getD "" ∉ nodeIds)
    (acc : List NavigationEdge) : loadEdgesStep nodeIds acc f = acc := by
  simp only [loadEdgesStep]
  split
  · split
    · rfl
    · split
      · rfl
      · rename_i h1 h2
        push_neg at h1 h2
        rcases hbad with h | h | h | h
        · exact absurd h h1.1
        · exact absurd h h1.2
        · exact absurd h2.1 h
        · exact absurd h2.2 h
  · rfl

theorem loadEdges_insert_skip (nodeIds : List String) (xs ys : List FeatureRec)
    {f : FeatureRec}
    (hbad : f.start_node.getD "" = "" ∨ f.end_node.getD "" = "" ∨
      f.start_node.getD "" ∉ nodeIds ∨ f.end_node.getD "" ∉ nodeIds) :
    loadEdges nodeIds (xs ++ f :: ys) = loadEdges nodeIds (xs ++ ys) := by
  rw [loadEdges, loadEdges, List.foldl_append, List.foldl_append, List.foldl_cons,
    loadEdgesStep_invalid hbad]

theorem loadEdgesStep_valid {nodeIds : List String} {acc : List NavigationEdge}
    {f : FeatureRec}
    (P : NavigationEdge → Prop)
    (hacc : ∀ e ∈ acc, P e)
    (hstep : ∀ e : NavigationEdge,
      e.start ≠ "" → e.«end» ≠ "" → e.start ∈ nodeIds → e.«end» ∈ nodeIds → P e) :
    ∀ e ∈ loadEdgesStep nodeIds acc f, P e := by
  intro e he
  simp only [loadEdgesStep] at he
  split at he
  · split at he
    · exact hacc e he
    · split at he
      · exact hacc e he
      · rename_i hne hmem
        rw [List.mem_append] at he
        rcases he with he | he
        · exact hacc e he
        · rw [List.mem_singleton] at he
          subst he
          push_neg at hne hmem
          exact hstep _ hne.1 hne.2 hmem.1 hmem.2
  · exact hacc e he

theorem loadEdges_valid (nodeIds : List String) (fs : List FeatureRec) :
    ∀ e ∈ loadEdges nodeIds fs,
      e.start ≠ "" ∧ e.«end» ≠ "" ∧ e.start ∈ nodeIds ∧ e.«end» ∈ nodeIds := by
  rw [loadEdges]
  generalize hacc : ([] : List NavigationEdge) = acc
  have h0 : ∀ e ∈ acc, e.start ≠ "" ∧ e.«end» ≠ "" ∧ e.start ∈ nodeIds ∧ e.«end» ∈ nodeIds := by
    rw [← hacc]; simp
  clear hacc
  induction fs generalizing acc with
  | nil => exact h0
  | cons f fs ih =>
    rw [List.foldl_cons]
    exact ih _ (loadEdgesStep_valid _ h0 (fun e h1 h2 h3 h4 => ⟨h1, h2, h3, h4⟩))

/-- C6: a malformed edge record (missing endpoint id, or an endpoint id
absent from the loaded node set) is skipped: loading with it gives exactly
the graph loaded without it — same node set, same other edges, and no
fatal failure — while every accepted edge has non-empty endpoint ids that
name loaded nodes. -/
theorem C6_malformed_edges_skipped (xs ys : List FeatureRec) (f : FeatureRec)
    (hf : f.ftype = some "edge")
    (hbad : ∀ nd, loadNodes (xs ++ ys) = some nd →
      f.start_node.getD "" = "" ∨ f.end_node.getD "" = "" ∨
      f.start_node.getD "" ∉ nd.map (fun p => p.1) ∨
      f.end_node.getD "" ∉ nd.map (fun p => p.1)) :
    NavigationGraph.load (xs ++ f :: ys) = NavigationGraph.load (xs ++ ys) ∧
    (∀ (fs : List FeatureRec) (g : NavigationGraph), NavigationGraph.load fs = some g →
      ∀ e ∈ g.edges,
        e.start ≠ "" ∧ e.«end» ≠ "" ∧ e.start ∈ g.nodes ∧ e.«end» ∈ g.nodes) := by
  constructor
  · have hfp : ¬ f.ftype = some "point" := by rw [hf]; simp
    rw [NavigationGraph.load, NavigationGraph.load, loadNodes_insert_skip xs ys hfp]
    cases hnd : loadNodes (xs ++ ys) with
    | none => rfl
    | some nd =>
      rw [Option.map_some', Option.map_some',
        loadEdges_insert_skip (nd.map (fun p => p.1)) xs ys (hbad nd hnd)]
  · intro fs g hg e he
    rw [NavigationGraph.load] at hg
    cases hnd : loadNodes fs with
    | none => rw [hnd] at hg; exact absurd hg (by simp)
    | some nd =>
      rw [hnd, Option.map_some', Option.some_inj] at hg
      subst hg
      exact loadEdges_valid _ fs e he

/-- A `point` feature for node `a1`. -/
def fNodeA1 : FeatureRec :=
  { ftype := some "point", id := some "a1", coordinates := some (0, 0), floor := none,
    rotation := none, index := none, inct := none, start_node := none, end_node := none,
    distance := none, bidirectional := none, weight := none, name := none,
    vertex_id := none }

/-- A `point` feature for node `a2`. -/
def fNodeA2 : FeatureRec :=
  { ftype := some "point", id := some "a2", coordinates := some (10, 0), floor := none,
    rotation := none, index := none, inct := none, start_node := none, end_node := none,
    distance := none, bidirectional := none, weight := none, name := none,
    vertex_id := none }

/-- An `edge` feature whose end node `c9` is not in the node set. -/
def fEdgeBad : FeatureRec :=
  { ftype := some "edge", id := some "bad", coordinates := none, floor := none,
    rotation := none, index := none, inct := none, start_node := some "a1",
    end_node := some "c9", distance := some 3, bidirectional := none, weight := none,
    name := none, vertex_id := none }

/-- A well-formed `edge` feature between `a1` and `a2`. -/
def fEdgeOk : FeatureRec :=
  { ftype := some "edge", id := none, coordinates := none, floor := none,
    rotation := none, index := none, inct := none, start_node := some "a1",
    end_node := some "a2", distance := some 7, bidirectional := some false,
    weight := none, name := none, vertex_id := none }

theorem C6_malformed_edges_skipped_witness :
    NavigationGraph.load ([fNodeA1, fNodeA2] ++ fEdgeBad :: [fEdgeOk]) =
      NavigationGraph.load ([fNodeA1, fNodeA2] ++ [fEdgeOk]) := by
  refine (C6_malformed_edges_skipped [fNodeA1, fNodeA2] [fEdgeOk] fEdgeBad rfl ?_).1
  intro nd hnd
  have hload : loadNodes ([fNodeA1, fNodeA2] ++ [fEdgeOk]) = some
      [("a1", { id := "a1", position := (0, 0), floor := 1, rotation := "0,1",
                index := 0, inct := none }),
       ("a2", { id := "a2", position := (10, 0), floor := 1, rotation := "0,1",
                index := 0, inct := none })] := by decide
  rw [hload, Option.some_inj] at hnd
  subst hnd
  decide

/-! ## Matrix infrastructure -/

/-- An `n × n` matrix. -/
def MatDim (n : ℕ) (m : Mat) : Prop :=
  m.length = n ∧ ∀ row ∈ m, row.length = n

theorem getD_mem_or {α : Type} (l : List α) (i : ℕ) (d : α) :
    l.getD i d ∈ l ∨ l.getD i d = d := by
  rw [List.getD_eq_getElem?_getD]
  cases h : l[i]? with
  | none => exact Or.inr rfl
  | some a =>
    rw [Option.getD_some]
    rcases List.getElem?_eq_some.mp h with ⟨hlt, ha⟩
    exact Or.inl (ha ▸ List.getElem_mem hlt)

theorem MatDim.rowLen {n : ℕ} {m : Mat} (h : MatDim n m) {i : ℕ} (hi : i < n) :
    (m.getD i []).length = n := by
  rw [List.getD_eq_getElem?_getD, List.getElem?_eq_getElem (h.1.symm ▸ hi), Option.getD_some]
  exact h.2 _ (List.getElem_mem _)

theorem MatDim.rowLen_oob {n : ℕ} {m : Mat} (h : MatDim n m) {i : ℕ} (hi : n ≤ i) :
    m.getD i [] = [] := by
  rw [List.getD_eq_getElem?_getD, List.getElem?_eq_none (h.1.symm ▸ hi)]
  rfl

theorem matGet_oob {n : ℕ} {m : Mat} (h : MatDim n m) {a b : ℕ} (hab : n ≤ a ∨ n ≤ b) :
    matGet m a b = ⊤ := by
  rw [matGet]
  rcases hab with ha | hb
  · rw [h.rowLen_oob ha]
    rfl
  · rcases Nat.lt_or_ge a n with ha | ha
    · rw [List.getD_eq_getElem?_getD (m.getD a []), List.getElem?_eq_none (by rw [h.rowLen ha]; exact hb)]
      rfl
    · rw [h.rowLen_oob ha]
      rfl

theorem matDim_matUpdate {n : ℕ} {m : Mat} (h : MatDim n m) (i j : ℕ) (v : W) :
    MatDim n (matUpdate m i j v) := by
  refine ⟨by rw [matUpdate, List.length_set, h.1], ?_⟩
  intro row hrow
  rw [matUpdate] at hrow
  rcases Nat.lt_or_ge i m.length with hi | hi
  · rcases List.mem_or_eq_of_mem_set hrow with h' | h'
    · exact h.2 row h'
    · subst h'
      rw [List.length_set, h.rowLen (h.1 ▸ hi)]
  · rw [List.set_eq_of_length_le hi] at hrow
    exact h.2 row hrow

theorem matGet_matUpdate {n : ℕ} {m : Mat} (h : MatDim n m) (i j : ℕ) (v : W) (a b : ℕ) :
    matGet (matUpdate m i j v) a b =
      if a = i ∧ b = j ∧ i < n ∧ j < n then v else matGet m a b := by
  rcases Nat.lt_or_ge i n with hi | hi
  · have hset : (matUpdate m i j v).getD i [] = (m.getD i []).set j v := by
      rw [matUpdate, List.getD_eq_getElem?_getD,
        List.getElem?_set_self (by rw [h.1]; exact hi), Option.getD_some]
    have hrows : ∀ c, c ≠ i → (matUpdate m i j v).getD c [] = m.getD c [] := by
      intro c hc
      rw [matUpdate, List.getD_eq_getElem?_getD, List.getElem?_set_ne (Ne.symm hc),
        List.getD_eq_getElem?_getD]
    rcases eq_or_ne a i with rfl | hai
    · rw [matGet, hset]
      rcases eq_or_ne b j with rfl | hbj
      · rcases Nat.lt_or_ge b n with hb | hb
        · rw [List.getD_eq_getElem?_getD,
            List.getElem?_set_self (by rw [h.rowLen hi]; exact hb), Option.getD_some,
            if_pos ⟨rfl, rfl, hi, hb⟩]
        · rw [List.set_eq_of_length_le (by rw [h.rowLen hi]; exact hb),
            if_neg (by omega), matGet]
      · rw [List.getD_eq_getElem?_getD, List.getElem?_set_ne (Ne.symm hbj),
          if_neg (by tauto)]
        simp only [matGet, List.getD_eq_getElem?_getD]
    · rw [matGet, hrows a hai, if_neg (by tauto), matGet]
  · rw [matUpdate, List.set_eq_of_length_le (by rw [h.1]; exact hi), if_neg (by omega)]

/-! ## Sorted-node lemmas -/

theorem mem_sortedNodes (g : NavigationGraph) (v : String) :
    v ∈ g.sortedNodes ↔ v ∈ g.nodes := by
  rw [NavigationGraph.sortedNodes, sortIds, List.mem_insertionSort]

theorem nodeIndex_lt (g : NavigationGraph) {v : String} (hv : v ∈ g.sortedNodes) :
    g.nodeIndex v < g.sortedNodes.length :=
  List.indexOf_lt_length.mpr hv

theorem sortedNodes_get_nodeIndex (g : NavigationGraph) {v : String}
    (hv : v ∈ g.sortedNodes) :
    g.sortedNodes.get ⟨g.nodeIndex v, nodeIndex_lt g hv⟩ = v :=
  List.getElem_indexOf _

theorem nodeIndex_inj (g : NavigationGraph) {u v : String} (huv : u ≠ v)
    (hu : g.nodeIndex u < g.sortedNodes.length)
    (hv : g.nodeIndex v < g.sortedNodes.length) :
    g.nodeIndex u ≠ g.nodeIndex v := by
  intro hEq
  apply huv
  have h1 := @List.getElem_indexOf String _ u g.sortedNodes hu
  have h2 := @List.getElem_indexOf String _ v g.sortedNodes hv
  rw [← h1, ← h2]
  congr 1

/-! ## Invariants of the initial matrix -/

/-- All cells non-negative (out-of-range reads give `⊤`). -/
def MatNN (m : Mat) : Prop := ∀ a b, 0 ≤ matGet m a b

theorem matDim_replicate (n : ℕ) : MatDim n (List.replicate n (List.replicate n (⊤ : W))) := by
  refine ⟨List.length_replicate .., ?_⟩
  intro row hrow
  rw [List.eq_of_mem_replicate hrow, List.length_replicate]

theorem matGet_replicate (n : ℕ) (a b : ℕ) :
    matGet (List.replicate n (List.replicate n (⊤ : W))) a b = ⊤ := by
  rw [matGet]
  rcases getD_mem_or (List.replicate n (List.replicate n (⊤ : W))) a [] with hm | hm
  · rw [List.eq_of_mem_replicate hm]
    rcases getD_mem_or (List.replicate n (⊤ : W)) b ⊤ with h2 | h2
    · exact List.eq_of_mem_replicate h2
    · exact h2
  · rw [hm]
    rfl

theorem matDim_zeroDiag {n : ℕ} {m : Mat} (h : MatDim n m) (t : ℕ) :
    MatDim n (zeroDiag t m) := by
  induction t with
  | zero => exact h
  | succ t ih => exact matDim_matUpdate ih t t 0

theorem matGet_zeroDiag {n : ℕ} {m : Mat} (h : MatDim n m) {t : ℕ} (ht : t ≤ n)
    (a b : ℕ) :
    matGet (zeroDiag t m) a b = if a = b ∧ a < t then 0 else matGet m a b := by
  induction t with
  | zero => rw [if_neg (by omega)]; rfl
  | succ t ih =>
    rw [zeroDiag, matGet_matUpdate (matDim_zeroDiag h t), ih (by omega)]
    by_cases h1 : a = t ∧ b = t
    · rw [if_pos ⟨h1.1, h1.2, by omega, by omega⟩, if_pos (by omega)]
    · rw [if_neg (by tauto)]
      by_cases h2 : a = b ∧ a < t
      · rw [if_pos h2, if_pos (by omega)]
      · rw [if_neg h2, if_neg (by omega)]

theorem matDim_edgeWrites {n : ℕ} {m : Mat} (g : NavigationGraph) (h : MatDim n m)
    (e : NavigationEdge) : MatDim n (edgeWrites g m e) := by
  rw [edgeWrites]
  split
  · exact matDim_matUpdate (matDim_matUpdate h ..) ..
  · exact matDim_matUpdate h ..

theorem matDim_foldl_edgeWrites {n : ℕ} {m : Mat} (g : NavigationGraph) (h : MatDim n m)
    (es : List NavigationEdge) : MatDim n (es.foldl (edgeWrites g) m) := by
  induction es generalizing m with
  | nil => exact h
  | cons e es ih => exact ih (matDim_edgeWrites g h e)

theorem matDim_initMatrix (g : NavigationGraph) :
    MatDim g.sortedNodes.length g.initMatrix :=
  matDim_foldl_edgeWrites g
    (matDim_zeroDiag (matDim_replicate _) _) g.edges

theorem matGet_edgeWrites {n : ℕ} {m : Mat} {g : NavigationGraph} (h : MatDim n m)
    (e : NavigationEdge) (a b : ℕ) :
    matGet (edgeWrites g m e) a b =
      if e.bidirectional = true ∧ a = g.nodeIndex e.«end» ∧ b = g.nodeIndex e.start ∧
          g.nodeIndex e.«end» < n ∧ g.nodeIndex e.start < n then ↑e.weight
      else if a = g.nodeIndex e.start ∧ b = g.nodeIndex e.«end» ∧
          g.nodeIndex e.start < n ∧ g.nodeIndex e.«end» < n then ↑e.weight
      else matGet m a b := by
  rw [edgeWrites]
  split
  · rename_i hbd
    rw [matGet_matUpdate (matDim_matUpdate h ..), matGet_matUpdate h]
    split_ifs <;> first | rfl | tauto
  · rename_i hbd
    rw [matGet_matUpdate h]
    split_ifs <;> first | rfl | tauto

theorem matNN_foldl_edgeWrites (g : NavigationGraph) {n : ℕ} {m0 : Mat}
    (hdim : MatDim n m0) (hnn : MatNN m0) (es : List NavigationEdge)
    (hw : ∀ e ∈ es, 0 ≤ e.weight) : MatNN (es.foldl (edgeWrites g) m0) := by
  induction es generalizing m0 with
  | nil => exact hnn
  | cons e es ih =>
    rw [List.foldl_cons]
    refine ih (matDim_edgeWrites g hdim e) ?_ (fun e' he' => hw e' (List.mem_cons_of_mem _ he'))
    intro a b
    rw [matGet_edgeWrites hdim]
    have hwe : (0 : W) ≤ ↑e.weight :=
      (W.zero_le_coe e.weight).mpr (hw e (List.mem_cons_self e es))
    split
    · exact hwe
    · split
      · exact hwe
      · exact hnn a b

/-- `MatNN` holds for the matrix before the closure when the edge weights
are non-negative. -/
theorem matNN_initMatrix (g : NavigationGraph) (hw : ∀ e ∈ g.edges, 0 ≤ e.weight) :
    MatNN g.initMatrix := by
  rw [NavigationGraph.initMatrix]
  refine matNN_foldl_edgeWrites g (matDim_zeroDiag (matDim_replicate _) _) ?_ g.edges hw
  intro a b
  rw [matGet_zeroDiag (matDim_replicate _) le_rfl, matGet_replicate]
  split
  · exact le_rfl
  · exact le_top

theorem diag_foldl_edgeWrites (g : NavigationGraph) {m0 : Mat}
    (hdim : MatDim g.sortedNodes.length m0) (es : List NavigationEdge)
    (hsl : ∀ e ∈ es, e.start ≠ e.«end»)
    (hbase : ∀ i < g.sortedNodes.length, matGet m0 i i = 0) :
    ∀ i < g.sortedNodes.length, matGet (es.foldl (edgeWrites g) m0) i i = 0 := by
  induction es generalizing m0 with
  | nil => exact hbase
  | cons e es ih =>
    rw [List.foldl_cons]
    refine ih (matDim_edgeWrites g hdim e)
      (fun e' he' => hsl e' (List.mem_cons_of_mem _ he')) ?_
    intro i hi
    rw [matGet_edgeWrites hdim]
    have hne := hsl e (List.mem_cons_self e es)
    split
    · rename_i hcond
      exact absurd rfl (hcond.2.1 ▸ hcond.2.2.1 ▸
        nodeIndex_inj g (Ne.symm hne) hcond.2.2.2.1 hcond.2.2.2.2)
    · split
      · rename_i hcond
        exact absurd rfl (hcond.1 ▸ hcond.2.1 ▸
          nodeIndex_inj g hne hcond.2.2.1 hcond.2.2.2)
      · exact hbase i hi

/-- With no self-loop edges, the diagonal of the pre-closure matrix is the
zero written by the initialization. -/
theorem diag_initMatrix (g : NavigationGraph)
    (hsl : ∀ e ∈ g.edges, e.start ≠ e.«end») :
    ∀ i < g.sortedNodes.length, matGet g.initMatrix i i = 0 := by
  rw [NavigationGraph.initMatrix]
  refine diag_foldl_edgeWrites g (matDim_zeroDiag (matDim_replicate _) _) g.edges hsl ?_
  intro i hi
  rw [matGet_zeroDiag (matDim_replicate _) le_rfl, if_pos ⟨rfl, hi⟩]

/-! ## The in-place closure computes the textbook iteration -/

theorem matDim_fwRelax {n : ℕ} {m : Mat} (h : MatDim n m) (k i j : ℕ) :
    MatDim n (fwRelax m k i j) := by
  rw [fwRelax]
  split
  · exact matDim_matUpdate h ..
  · exact h

theorem matGet_fwRelax {n : ℕ} {m : Mat} (h : MatDim n m) (k i j a b : ℕ) :
    matGet (fwRelax m k i j) a b =
      if a = i ∧ b = j ∧ i < n ∧ j < n then
        min (matGet m i j) (matGet m i k + matGet m k j)
      else matGet m a b := by
  rw [fwRelax]
  split
  · rename_i hlt
    rw [matGet_matUpdate h]
    split_ifs with hc
    · rw [min_eq_right (le_of_lt hlt)]
    · rfl
  · rename_i hlt
    split_ifs with hc
    · rw [min_eq_left (not_lt.mp hlt), hc.1, hc.2.1]
    · rfl

theorem matNN_fwRelax {n : ℕ} {m : Mat} (h : MatDim n m) (hnn : MatNN m) (k i j : ℕ) :
    MatNN (fwRelax m k i j) := by
  intro a b
  rw [matGet_fwRelax h]
  split
  · exact le_min (hnn i j) (add_nonneg (hnn i k) (hnn k j))
  · exact hnn a b

theorem matDim_fwJ {n : ℕ} {m : Mat} (h : MatDim n m) (k i jc : ℕ) :
    MatDim n (fwJ k i jc m) := by
  induction jc with
  | zero => exact h
  | succ j ih => exact matDim_fwRelax ih ..

/-- Characterization of the innermost loop: under non-negativity the row
`k` and column `k` candidate values never change during the pass, so each
processed cell of row `i` receives the pure relaxation value. -/
theorem matGet_fwJ {n : ℕ} {m : Mat} (h : MatDim n m) (hnn : MatNN m)
    {i : ℕ} (hi : i < n) {jc : ℕ} (hjc : jc ≤ n) (k : ℕ) :
    ∀ a b, matGet (fwJ k i jc m) a b =
      if a = i ∧ b < jc then min (matGet m a b) (matGet m a k + matGet m k b)
      else matGet m a b := by
  induction jc with
  | zero => intro a b; rw [if_neg (by omega)]; rfl
  | succ j ih =>
    intro a b
    have ih' := ih (by omega)
    have hdimJ : MatDim n (fwJ k i j m) := matDim_fwJ h k i j
    rw [fwJ, matGet_fwRelax hdimJ]
    have hik : matGet (fwJ k i j m) i k = matGet m i k := by
      rw [ih']
      split
      · exact min_eq_left (le_add_of_nonneg_right (hnn k k))
      · rfl
    have hkj : matGet (fwJ k i j m) k j = matGet m k j := by
      rw [ih']
      split
      · exact min_eq_left (le_add_of_nonneg_left (hnn k k))
      · rfl
    have hij : matGet (fwJ k i j m) i j = matGet m i j := by
      rw [ih', if_neg (by omega)]
    split_ifs with h1 h2 h3
    · rw [hik, hkj, hij, h1.1, h1.2.1]
    · rcases h1 with ⟨ha, hb, _, _⟩
      exact absurd ⟨ha, by omega⟩ h2
    · rcases h3 with ⟨ha, hb⟩
      rcases Nat.lt_or_ge b j with hbj | hbj
      · rw [ih', if_pos ⟨ha, hbj⟩]
      · have hbj' : b = j := by omega
        exact absurd ⟨ha, hbj', hi, by omega⟩ h1
    · rw [ih', if_neg (by omega)]

theorem matNN_fwJ {n : ℕ} {m : Mat} (h : MatDim n m) (hnn : MatNN m)
    {i : ℕ} (hi : i < n) {jc : ℕ} (hjc : jc ≤ n) (k : ℕ) :
    MatNN (fwJ k i jc m) := by
  intro a b
  rw [matGet_fwJ h hnn hi hjc]
  split
  · exact le_min (hnn a b) (add_nonneg (hnn a k) (hnn k b))
  · exact hnn a b

theorem matDim_fwI {n : ℕ} {m : Mat} (h : MatDim n m) (k jc ic : ℕ) :
    MatDim n (fwI k jc ic m) := by
  induction ic with
  | zero => exact h
  | succ i ih => exact matDim_fwJ ih ..

/-- Characterization of the middle loop over the in-place matrix. -/
theorem matGet_fwI {n : ℕ} {m : Mat} (h : MatDim n m) (hnn : MatNN m)
    {jc : ℕ} (hjc : jc ≤ n) {ic : ℕ} (hic : ic ≤ n) (k : ℕ) :
    ∀ a b, matGet (fwI k jc ic m) a b =
      if a < ic ∧ b < jc then min (matGet m a b) (matGet m a k + matGet m k b)
      else matGet m a b := by
  induction ic with
  | zero => intro a b; rw [if_neg (by omega)]; rfl
  | succ i ih =>
    intro a b
    have ih' := ih (by omega)
    have hdimI : MatDim n (fwI k jc i m) := matDim_fwI h k jc i
    have hnnI : MatNN (fwI k jc i m) := by
      intro a' b'
      rw [ih']
      split
      · exact le_min (hnn a' b') (add_nonneg (hnn a' k) (hnn k b'))
      · exact hnn a' b'
    rw [fwI, matGet_fwJ hdimI hnnI (by omega) hjc]
    have hrow : ∀ c, matGet (fwI k jc i m) i c = matGet m i c := by
      intro c
      rw [ih', if_neg (by omega)]
    have hcolk : ∀ c, matGet (fwI k jc i m) k c = matGet m k c := by
      intro c
      rw [ih']
      split
      · exact min_eq_left (le_add_of_nonneg_left (hnn k k))
      · rfl
    split_ifs with h1 h2 h3
    · rcases h1 with ⟨ha, hb⟩
      subst ha
      rw [hrow, hrow, hcolk]
    · rcases h1 with ⟨ha, hb⟩
      exact absurd ⟨by omega, hb⟩ h2
    · rcases h3 with ⟨ha, hb⟩
      rcases Nat.lt_or_ge a i with hai | hai
      · rw [ih', if_pos ⟨hai, hb⟩]
      · have : a = i := by omega
        exact absurd ⟨this, hb⟩ h1
    · rw [ih', if_neg (by omega)]

/-- The pure (textbook) Floyd-Warshall iteration, used as the reference for
the in-place loops. -/
def pureFW (n : ℕ) (m0 : Mat) : ℕ → ℕ → ℕ → W
  | 0, a, b => matGet m0 a b
  | t + 1, a, b =>
    if a < n ∧ b < n then
      min (pureFW n m0 t a b) (pureFW n m0 t a t + pureFW n m0 t t b)
    else pureFW n m0 t a b

theorem pureFW_nonneg {n : ℕ} {m0 : Mat} (hnn : MatNN m0) (t : ℕ) :
    ∀ a b, 0 ≤ pureFW n m0 t a b := by
  induction t with
  | zero => exact hnn
  | succ t ih =>
    intro a b
    rw [pureFW]
    split
    · exact le_min (ih a b) (add_nonneg (ih a t) (ih t b))
    · exact ih a b

theorem matDim_fwK {n : ℕ} {m : Mat} (h : MatDim n m) (t : ℕ) :
    MatDim n (fwK n n t m) := by
  induction t with
  | zero => exact h
  | succ t ih => exact matDim_fwI ih ..

/-- The in-place triple loop computes the pure iteration. -/
theorem fwK_eq_pureFW {n : ℕ} {m0 : Mat} (h : MatDim n m0) (hnn : MatNN m0) :
    ∀ t, t ≤ n → ∀ a b, matGet (fwK n n t m0) a b = pureFW n m0 t a b := by
  intro t
  induction t with
  | zero => intro _ a b; rfl
  | succ t ih =>
    intro ht a b
    have ih' := ih (by omega)
    have hdimK : MatDim n (fwK n n t m0) := matDim_fwK h t
    have hnnK : MatNN (fwK n n t m0) := by
      intro a' b'
      rw [ih' a' b']
      exact pureFW_nonneg hnn t a' b'
    rw [fwK, matGet_fwI hdimK hnnK le_rfl le_rfl, pureFW]
    split
    · rw [ih', ih', ih']
    · rw [ih']

/-- The matrix of a graph with non-negative weights is the pure iteration
of its pre-closure matrix, run `n` times. -/
theorem matrix_eq_pureFW (g : NavigationGraph) (hw : ∀ e ∈ g.edges, 0 ≤ e.weight)
    (a b : ℕ) :
    matGet g.matrix a b =
      pureFW g.sortedNodes.length g.initMatrix g.sortedNodes.length a b := by
  rw [NavigationGraph.matrix, floydWarshallN,
    fwK_eq_pureFW (matDim_initMatrix g) (matNN_initMatrix g hw) _ le_rfl]

/-! ## Diagonal and non-negativity of the closed matrix -/

theorem pureFW_diag {n : ℕ} {m0 : Mat} (hnn : MatNN m0)
    (hd0 : ∀ i < n, matGet m0 i i = 0) (t : ℕ) :
    ∀ i < n, pureFW n m0 t i i = 0 := by
  induction t with
  | zero => exact hd0
  | succ t ih =>
    intro i hi
    rw [pureFW, if_pos ⟨hi, hi⟩, ih i hi]
    exact min_eq_left (add_nonneg (pureFW_nonneg hnn t i t) (pureFW_nonneg hnn t t i))

/-- `get_distance(v, v) = 0` for a loaded node, when the weights are
non-negative and no edge is a self loop. -/
theorem get_distance_self (g : NavigationGraph)
    (hw : ∀ e ∈ g.edges, 0 ≤ e.weight) (hsl : ∀ e ∈ g.edges, e.start ≠ e.«end»)
    {v : String} (hv : v ∈ g.nodes) : g.get_distance v v = 0 := by
  have hmem : v ∈ g.sortedNodes := (mem_sortedNodes g v).mpr hv
  rw [NavigationGraph.get_distance, if_pos ⟨hmem, hmem⟩, matrix_eq_pureFW g hw]
  exact pureFW_diag (matNN_initMatrix g hw) (diag_initMatrix g hsl) _ _
    (nodeIndex_lt g hmem)

/-- Every matrix distance is non-negative when the weights are. -/
theorem get_distance_nonneg (g : NavigationGraph)
    (hw : ∀ e ∈ g.edges, 0 ≤ e.weight) (a b : String) :
    0 ≤ g.get_distance a b := by
  rw [NavigationGraph.get_distance]
  split
  · rw [matrix_eq_pureFW g hw]
    exact pureFW_nonneg (matNN_initMatrix g hw) _ _ _
  · exact le_top

/-- The start-equals-end shortcut of `find_path`. -/
theorem find_path_self (g : NavigationGraph) {s : String} (hs : s ∈ g.nodes) :
    g.find_path s s = some [s] := by
  rw [NavigationGraph.find_path, if_pos ⟨hs, hs⟩, if_pos rfl]

/-- C5 (amended): on a graph with non-negative edge weights and no
self-loop edges, `get_distance(n, n) = 0` for every loaded node `n`.  (As
stated the claim fails: a self-loop edge overwrites the zero diagonal
cell, see the counterexample.) -/
theorem C5_diagonal_zero (g : NavigationGraph)
    (hw : ∀ e ∈ g.edges, 0 ≤ e.weight) (hsl : ∀ e ∈ g.edges, e.start ≠ e.«end»)
    {v : String} (hv : v ∈ g.nodes) : g.get_distance v v = 0 :=
  get_distance_self g hw hsl hv

theorem C5_diagonal_zero_witness : demo2.get_distance "a1" "a1" = 0 :=
  C5_diagonal_zero demo2 (by decide) (by decide) (by decide)

/-- C7 (amended): `find_path(s, s) = [s]` for every loaded node `s`, and
`get_distance(s, s) = 0` provided additionally that the weights are
non-negative and no edge is a self loop.  (As stated the claim fails on a
positive-weight self loop, see the counterexample.) -/
theorem C7_trivial_path (g : NavigationGraph) (s : String) :
    (s ∈ g.nodes → g.find_path s s = some [s]) ∧
    ((∀ e ∈ g.edges, 0 ≤ e.weight) → (∀ e ∈ g.edges, e.start ≠ e.«end») →
      s ∈ g.nodes → g.get_distance s s = 0) :=
  ⟨fun hs => find_path_self g hs,
   fun hw hsl hs => get_distance_self g hw hsl hs⟩

theorem C7_trivial_path_witness :
    demo2.find_path "a2" "a2" = some ["a2"] ∧ demo2.get_distance "a2" "a2" = 0 :=
  ⟨(C7_trivial_path demo2 "a2").1 (by decide),
   (C7_trivial_path demo2 "a2").2 (by decide) (by decide) (by decide)⟩

/-! ## Instruction-generator lemmas (claim C3) -/

theorem stepDistance_nonneg (g : NavigationGraph)
    (hd : ∀ e ∈ g.edges, 0 ≤ e.distance) (hw : ∀ e ∈ g.edges, 0 ≤ e.weight)
    (a b : String) : 0 ≤ g.stepDistance a b := by
  rw [NavigationGraph.stepDistance]
  cases hf : g.edges.find? (fun e =>
      (e.start = a ∧ e.«end» = b) ∨
      (e.bidirectional = true ∧ e.start = b ∧ e.«end» = a)) with
  | some e =>
    exact (W.zero_le_coe e.distance).mpr (hd e (List.mem_of_find?_eq_some hf))
  | none => exact get_distance_nonneg g hw a b

theorem getLast?_cons_ne {α : Type} {x : α} {l : List α} (h : l ≠ []) :
    (x :: l).getLast? = l.getLast? := by
  cases l with
  | nil => exact absurd rfl h
  | cons y l => exact List.getLast?_cons_cons ..

theorem instrGo_last (g : NavigationGraph) :
    ∀ (rest : List String) (a b : String) (t : W),
      ((instrGo g t (a :: b :: rest)).map (fun i => i.cumulative_distance)).getLast? =
        some (t + wcost g.stepDistance (a :: b :: rest)) := by
  intro rest
  induction rest with
  | nil =>
    intro a b t
    simp [instrGo, wcost]
  | cons c rest ih =>
    intro a b t
    rw [instrGo, List.map_cons, getLast?_cons_ne, ih b c]
    · rw [show wcost g.stepDistance (a :: b :: c :: rest) =
        g.stepDistance a b + wcost g.stepDistance (b :: c :: rest) from rfl, add_assoc]
    · simp [instrGo]

theorem instrGo_chain (g : NavigationGraph)
    (hstep : ∀ a b, 0 ≤ g.stepDistance a b) :
    ∀ (rest : List String) (a b : String) (t : W),
      List.Chain' (· ≤ ·)
        ((instrGo g t (a :: b :: rest)).map (fun i => i.cumulative_distance)) := by
  intro rest
  induction rest with
  | nil =>
    intro a b t
    simp [instrGo]
  | cons c rest ih =>
    intro a b t
    rw [instrGo, List.map_cons]
    rw [show instrGo g (t + g.stepDistance a b) (b :: c :: rest) =
      ⟨b, c, g.stepDistance b c, t + g.stepDistance a b + g.stepDistance b c⟩ ::
        instrGo g (t + g.stepDistance a b + g.stepDistance b c) (c :: rest) from rfl,
      List.map_cons, List.chain'_cons]
    constructor
    · exact le_add_of_nonneg_right (hstep b c)
    · have := ih b c (t + g.stepDistance a b)
      rw [instrGo, List.map_cons] at this
      exact this

/-- The `distance` field of a route is the weight-based matrix distance of
the resolved endpoints, not the physical instruction total. -/
theorem navigate_distance (nav : IndoorNavigation) (a b : String) (r : RouteResult)
    (h : nav.navigate a b = some r) :
    r.distance = nav.graph.get_distance r.start_node r.end_node := by
  rw [IndoorNavigation.navigate] at h
  split at h
  · split at h
    · exact absurd h (by simp)
    · split at h
      · exact absurd h (by simp)
      · split at h
        · exact absurd h (by simp)
        · rw [Option.some_inj] at h
          subst h
          rfl
  · exact absurd h (by simp)

/-- C3 (amended): when the physical distances and the weights are both
non-negative, the cumulative distances of the instructions for any
sequence of at least two node ids are non-decreasing, the last cumulative
equals the total physical distance of the path, and the route `distance`
reported by `navigate` is the weight-based matrix distance of the resolved
endpoints.  (As stated — with only the distances assumed non-negative —
the claim fails through the negative-weight matrix fallback, see the
counterexample.) -/
theorem C3_cumulative_monotone (g : NavigationGraph)
    (hd : ∀ e ∈ g.edges, 0 ≤ e.distance) (hw : ∀ e ∈ g.edges, 0 ≤ e.weight)
    (p : List String) (hp : 2 ≤ p.length) :
    List.Chain' (· ≤ ·) ((g.get_path_instructions p).map (fun i => i.cumulative_distance)) ∧
    ((g.get_path_instructions p).map (fun i => i.cumulative_distance)).getLast? =
      some (pathPhysDistance g p) ∧
    (∀ (nav : IndoorNavigation) (x y : String) (r : RouteResult),
      nav.navigate x y = some r →
        r.distance = nav.graph.get_distance r.start_node r.end_node) := by
  match p, hp with
  | a :: b :: rest, _ =>
    rw [NavigationGraph.get_path_instructions, if_neg (by simp)]
    refine ⟨?_, ?_, navigate_distance⟩
    · exact instrGo_chain g (stepDistance_nonneg g hd hw) rest a b 0
    · rw [instrGo_last g rest a b 0, zero_add, pathPhysDistance]

theorem C3_cumulative_monotone_witness :
    List.Chain' (· ≤ ·)
      ((demo2.get_path_instructions ["a1", "a2", "b1"]).map
        (fun i => i.cumulative_distance)) ∧
    ((demo2.get_path_instructions ["a1", "a2", "b1"]).map
      (fun i => i.cumulative_distance)).getLast? =
      some (pathPhysDistance demo2 ["a1", "a2", "b1"]) :=
  ⟨(C3_cumulative_monotone demo2 (by decide) (by decide) ["a1", "a2", "b1"] (by decide)).1,
   (C3_cumulative_monotone demo2 (by decide) (by decide) ["a1", "a2", "b1"] (by decide)).2.1⟩

/-! ## Unreached columns of the matrix (claim C8)

A node id that no accepted edge points at keeps an infinite column in the
matrix (off the diagonal), whatever the weights are: the strict-improvement
guard of the relaxation can never fire into an infinite column. -/

theorem fwRelax_col_top {n : ℕ} {m : Mat} (h : MatDim n m) {v : ℕ}
    (hcol : ∀ a, a ≠ v → matGet m a v = ⊤) (k i j : ℕ) :
    ∀ a, a ≠ v → matGet (fwRelax m k i j) a v = ⊤ := by
  intro a ha
  rw [matGet_fwRelax h]
  split
  · rename_i hc
    obtain ⟨hai, hvj, _, _⟩ := hc
    subst hai
    subst hvj
    have h1 : matGet m a v = ⊤ := hcol a ha
    have h2 : matGet m a k + matGet m k v = ⊤ := by
      rcases eq_or_ne k v with rfl | hkv
      · rw [hcol a ha]
        exact top_add _
      · rw [hcol k hkv]
        exact add_top _
    rw [h1, h2, min_self]
  · exact hcol a ha

theorem fwJ_col_top {n : ℕ} {m : Mat} (h : MatDim n m) {v : ℕ}
    (hcol : ∀ a, a ≠ v → matGet m a v = ⊤) (k i jc : ℕ) :
    ∀ a, a ≠ v → matGet (fwJ k i jc m) a v = ⊤ := by
  induction jc with
  | zero => exact hcol
  | succ j ih => exact fwRelax_col_top (matDim_fwJ h k i j) ih k i j

theorem fwI_col_top {n : ℕ} {m : Mat} (h : MatDim n m) {v : ℕ}
    (hcol : ∀ a, a ≠ v → matGet m a v = ⊤) (k jc ic : ℕ) :
    ∀ a, a ≠ v → matGet (fwI k jc ic m) a v = ⊤ := by
  induction ic with
  | zero => exact hcol
  | succ i ih => exact fwJ_col_top (matDim_fwI h k jc i) ih k i jc

theorem fwK_col_top {n : ℕ} {m : Mat} (h : MatDim n m) {v : ℕ}
    (hcol : ∀ a, a ≠ v → matGet m a v = ⊤) (t : ℕ) :
    ∀ a, a ≠ v → matGet (fwK n n t m) a v = ⊤ := by
  induction t with
  | zero => exact hcol
  | succ t ih => exact fwI_col_top (matDim_fwK h t) ih t n n

theorem initMatrix_col_top (g : NavigationGraph)
    (hne : ∀ e ∈ g.edges, e.start ≠ "" ∧ e.«end» ≠ "")
    (hv : "" ∈ g.sortedNodes) :
    ∀ a, a ≠ g.nodeIndex "" → matGet g.initMatrix a (g.nodeIndex "") = ⊤ := by
  rw [NavigationGraph.initMatrix]
  have hbase : ∀ a, a ≠ g.nodeIndex "" →
      matGet (zeroDiag g.sortedNodes.length
        (List.replicate g.sortedNodes.length (List.replicate g.sortedNodes.length ⊤)))
        a (g.nodeIndex "") = ⊤ := by
    intro a ha
    rw [matGet_zeroDiag (matDim_replicate _) le_rfl, if_neg (by tauto), matGet_replicate]
  have hdim : MatDim g.sortedNodes.length
      (zeroDiag g.sortedNodes.length
        (List.replicate g.sortedNodes.length (List.replicate g.sortedNodes.length ⊤))) :=
    matDim_zeroDiag (matDim_replicate _) _
  have hvlt : g.nodeIndex "" < g.sortedNodes.length := nodeIndex_lt g hv
  have main : ∀ (es : List NavigationEdge), (∀ e ∈ es, e.start ≠ "" ∧ e.«end» ≠ "") →
      ∀ (m0 : Mat), MatDim g.sortedNodes.length m0 →
      (∀ a, a ≠ g.nodeIndex "" → matGet m0 a (g.nodeIndex "") = ⊤) →
      ∀ a, a ≠ g.nodeIndex "" →
        matGet (es.foldl (edgeWrites g) m0) a (g.nodeIndex "") = ⊤ := by
    intro es hes
    induction es with
    | nil => intro m0 _ hbase; exact hbase
    | cons e es ih =>
      intro m0 hdim hbase
      rw [List.foldl_cons]
      refine ih (fun e' he' => hes e' (List.mem_cons_of_mem _ he'))
        _ (matDim_edgeWrites g hdim e) ?_
      intro a ha
      rw [matGet_edgeWrites hdim]
      have hee := hes e (List.mem_cons_self e es)
      split
      · rename_i hc
        exfalso
        have hlt : g.nodeIndex e.start < g.sortedNodes.length := hc.2.2.2.2
        have hmem : e.start ∈ g.sortedNodes := List.indexOf_lt_length.mp hlt
        exact nodeIndex_inj g hee.1 hlt hvlt hc.2.2.1.symm
      · split
        · rename_i hc
          exfalso
          have hlt : g.nodeIndex e.«end» < g.sortedNodes.length := hc.2.2.2
          exact nodeIndex_inj g hee.2 hlt hvlt hc.2.1.symm
        · exact hbase a ha
  exact main g.edges hne _ hdim hbase

/-- A non-empty node id has infinite matrix distance to the empty id when
every accepted edge has non-empty endpoints (the loader guarantees this). -/
theorem get_distance_empty_top (g : NavigationGraph)
    (hne : ∀ e ∈ g.edges, e.start ≠ "" ∧ e.«end» ≠ "") {s : String} (hs : s ≠ "") :
    g.get_distance s "" = ⊤ := by
  rw [NavigationGraph.get_distance]
  split
  · rename_i hc
    have hsm : s ∈ g.sortedNodes := hc.1
    have hvm : ("" : String) ∈ g.sortedNodes := hc.2
    rw [NavigationGraph.matrix, floydWarshallN]
    refine fwK_col_top (matDim_initMatrix g) (initMatrix_col_top g hne hvm) _ _ ?_
    intro hEq
    exact hs (by
      have h1 := sortedNodes_get_nodeIndex g hsm
      have h2 := sortedNodes_get_nodeIndex g hvm
      rw [← h1, ← h2]
      congr 1
      exact Fin.ext hEq)
  · rfl

instance nearbyLeTotal : IsTotal NearbyPoi (fun x y => x.distance ≤ y.distance) :=
  ⟨fun a b => le_total a.distance b.distance⟩

instance nearbyLeTrans : IsTrans NearbyPoi (fun x y => x.distance ≤ y.distance) :=
  ⟨fun _ _ _ hab hbc => le_trans hab hbc⟩

theorem sortNearby_pairwise (l : List NearbyPoi) :
    List.Pairwise (fun x y => x.distance ≤ y.distance) (sortNearby l) :=
  List.sorted_insertionSort _ l

theorem sortNearby_mem (l : List NearbyPoi) (x : NearbyPoi) :
    x ∈ sortNearby l ↔ x ∈ l :=
  (List.perm_insertionSort _ l).mem_iff

/-- C8: for a resolvable location, `get_nearby_pois` reports exactly the
POIs whose resolved node is within `max_distance` of the resolved start
(unreachable POIs, at infinite distance, are excluded because `⊤` exceeds
every bound), the reported distances are the matrix distances, and the
list is sorted ascending by distance. -/
theorem C8_nearby_pois (nav : IndoorNavigation)
    (hne : ∀ e ∈ nav.graph.edges, e.start ≠ "" ∧ e.«end» ≠ "")
    {L s : String} (hres : nav.resolve_location L = some s) (hs : s ≠ "")
    (maxd : ℚ) :
    List.Pairwise (fun x y => x.distance ≤ y.distance) (nav.get_nearby_pois L maxd) ∧
    (∀ pid : String,
      (∃ item ∈ nav.get_nearby_pois L maxd, item.id = pid) ↔
        ((∃ info, dictFind nav.pois pid = some info) ∧
         ∃ pn, nav.resolve_location pid = some pn ∧
           nav.graph.get_distance s pn ≤ ↑maxd)) ∧
    (∀ item ∈ nav.get_nearby_pois L maxd,
      ∃ pn, nav.resolve_location item.id = some pn ∧
        item.distance = nav.graph.get_distance s pn) := by
  have hdef : nav.get_nearby_pois L maxd =
      sortNearby (nav.pois.filterMap fun pair =>
        match nav.resolve_location pair.1 with
        | none => none
        | some poi_node =>
          if poi_node = "" then none
          else
            if nav.graph.get_distance s poi_node ≤ ↑maxd then
              some { id := pair.1, name := pair.2.name, ptype := pair.2.ptype,
                     distance := nav.graph.get_distance s poi_node }
            else none) := by
    rw [IndoorNavigation.get_nearby_pois, hres]
    dsimp only
    rw [if_neg hs]
  refine ⟨hdef ▸ sortNearby_pairwise _, ?_, ?_⟩
  · intro pid
    constructor
    · rintro ⟨item, hitem, rfl⟩
      rw [hdef, sortNearby_mem, List.mem_filterMap] at hitem
      obtain ⟨pair, hpair, hf⟩ := hitem
      rcases hrp : nav.resolve_location pair.1 with _ | pn
      · rw [hrp] at hf
        exact absurd hf (by simp)
      · rw [hrp] at hf
        dsimp only at hf
        by_cases hpn : pn = ""
        · rw [if_pos hpn] at hf
          exact absurd hf (by simp)
        · rw [if_neg hpn] at hf
          by_cases hle : nav.graph.get_distance s pn ≤ ↑maxd
          · rw [if_pos hle, Option.some_inj] at hf
            subst hf
            refine ⟨?_, pn, hrp, hle⟩
            have : (nav.pois.find? (fun p => p.1 = pair.1)).isSome := by
              rw [List.find?_isSome]
              exact ⟨pair, hpair, by simp⟩
            rcases Option.isSome_iff_exists.mp this with ⟨pr, hpr⟩
            exact ⟨pr.2, by rw [dictFind, hpr, Option.map_some']⟩
          · rw [if_neg hle] at hf
            exact absurd hf (by simp)
    · rintro ⟨⟨info, hinfo⟩, pn, hrp, hle⟩
      have hpn : pn ≠ "" := by
        intro hEq
        subst hEq
        rw [get_distance_empty_top nav.graph hne hs] at hle
        exact absurd hle (by simp)
      rw [dictFind] at hinfo
      rcases hfind : nav.pois.find? (fun p => p.1 = pid) with _ | pr
      · rw [hfind] at hinfo
        exact absurd hinfo (by simp)
      · have hprmem : pr ∈ nav.pois := List.mem_of_find?_eq_some hfind
        have hprid : pr.1 = pid := by
          have := List.find?_some hfind
          simpa using this
        refine ⟨{ id := pr.1, name := pr.2.name, ptype := pr.2.ptype,
                  distance := nav.graph.get_distance s pn }, ?_, hprid⟩
        rw [hdef, sortNearby_mem, List.mem_filterMap]
        refine ⟨pr, hprmem, ?_⟩
        rw [hprid, hrp]
        dsimp only
        rw [if_neg hpn, if_pos hle]
  · intro item hitem
    rw [hdef, sortNearby_mem, List.mem_filterMap] at hitem
    obtain ⟨pair, hpair, hf⟩ := hitem
    rcases hrp : nav.resolve_location pair.1 with _ | pn
    · rw [hrp] at hf
      exact absurd hf (by simp)
    · rw [hrp] at hf
      dsimp only at hf
      by_cases hpn : pn = ""
      · rw [if_pos hpn] at hf
        exact absurd hf (by simp)
      · rw [if_neg hpn] at hf
        by_cases hle : nav.graph.get_distance s pn ≤ ↑maxd
        · rw [if_pos hle, Option.some_inj] at hf
          subst hf
          exact ⟨pn, hrp, rfl⟩
        · rw [if_neg hle] at hf
          exact absurd hf (by simp)

theorem demo2_get_a1_a2 : demo2.get_distance "a1" "a2" = ((10:ℚ):W) := by
  rw [NavigationGraph.get_distance, if_pos]
  · have h1 : demo2.nodeIndex "a1" = 0 := by
      simp +decide [NavigationGraph.nodeIndex, demo2_sortedNodes, List.indexOf_cons]
    have h2 : demo2.nodeIndex "a2" = 1 := by
      simp +decide [NavigationGraph.nodeIndex, demo2_sortedNodes, List.indexOf_cons]
    rw [h1, h2, demo2_matrix]
    simp [matGet, List.getD]
  · rw [demo2_sortedNodes]; constructor <;> simp

theorem C8_nearby_pois_witness :
    List.Pairwise (fun x y => x.distance ≤ y.distance)
      (navDemo.get_nearby_pois "a1" 50) ∧
    (∃ item ∈ navDemo.get_nearby_pois "a1" 50, item.id = "p1") :=
  ⟨(C8_nearby_pois navDemo (by decide) navDemo_resolve_node (by decide) 50).1,
   ((C8_nearby_pois navDemo (by decide) navDemo_resolve_node (by decide) 50).2.1 "p1").mpr
     ⟨⟨{ name := "Lift", ptype := "elevator", floor := 1, access_nodes := ["a2"] },
       by decide⟩,
      "a2", navDemo_resolve_poi, by
        show demo2.get_distance "a1" "a2" ≤ ((50:ℚ):W)
        rw [demo2_get_a1_a2]
        exact WithTop.coe_le_coe.mpr (by norm_num)⟩⟩

/-! ## Walks and their costs

The common reference connecting the matrix and the search: a walk is a
non-empty vertex sequence with fixed endpoints over an allowed vertex set,
and its cost is the sum of the per-step costs. -/

/-- A walk from `i` to `j` over vertices satisfying `P`. -/
def IsWalkOn {α : Type} (P : α → Prop) (i j : α) (p : List α) : Prop :=
  p.head? = some i ∧ p.getLast? = some j ∧ ∀ v ∈ p, P v

/-- The set of costs of walks from `i` to `j`. -/
def walkCosts {α : Type} (P : α → Prop) (c : α → α → W) (i j : α) : Set W :=
  {x | ∃ p, IsWalkOn P i j p ∧ wcost c p = x}

theorem wcost_nonneg {α : Type} {c : α → α → W} (hc : ∀ a b, 0 ≤ c a b) :
    ∀ p : List α, 0 ≤ wcost c p
  | [] => le_rfl
  | [_] => le_rfl
  | a :: b :: rest => by
    rw [wcost]
    exact add_nonneg (hc a b) (wcost_nonneg hc (b :: rest))

theorem wcost_append_cons {α : Type} (c : α → α → W) :
    ∀ (p1 : List α) (x : α) (p2 : List α),
      wcost c (p1 ++ x :: p2) = wcost c (p1 ++ [x]) + wcost c (x :: p2) := by
  intro p1
  induction p1 with
  | nil =>
    intro x p2
    rw [List.nil_append, List.nil_append, show wcost c [x] = 0 from rfl, zero_add]
  | cons a p1 ih =>
    intro x p2
    cases p1 with
    | nil =>
      cases p2 with
      | nil => simp [wcost]
      | cons y p2 => simp [wcost, add_assoc]
    | cons b p1' =>
      have h1 : (a :: b :: p1') ++ x :: p2 = a :: ((b :: p1') ++ x :: p2) := rfl
      have h2 : (a :: b :: p1') ++ [x] = a :: ((b :: p1') ++ [x]) := rfl
      rw [h1, h2]
      have h3 : wcost c (a :: ((b :: p1') ++ x :: p2)) =
          c a b + wcost c ((b :: p1') ++ x :: p2) := rfl
      have h4 : wcost c (a :: ((b :: p1') ++ [x])) =
          c a b + wcost c ((b :: p1') ++ [x]) := rfl
      rw [h3, h4, ih x p2, add_assoc]

theorem wcost_concat {α : Type} (c : α → α → W) (p : List α) (u v : α)
    (hu : p.getLast? = some u) :
    wcost c (p ++ [v]) = wcost c p + c u v := by
  rcases List.getLast?_eq_some_iff.mp hu with ⟨p', rfl⟩
  rw [List.append_assoc, List.singleton_append, wcost_append_cons,
    show wcost c [u, v] = c u v + wcost c [v] from rfl,
    show wcost c ([v] : List α) = 0 from rfl, add_zero]

/-- The inner vertices of a walk. -/
def interV {α : Type} (p : List α) : List α := p.tail.dropLast

theorem interV_subset {α : Type} (p : List α) : ∀ v ∈ interV p, v ∈ p := by
  intro v hv
  exact List.mem_of_mem_tail (List.mem_of_mem_dropLast hv)

theorem exists_first_split {α : Type} [DecidableEq α] {t : α} :
    ∀ {l : List α}, t ∈ l → ∃ l1 l2, l = l1 ++ t :: l2 ∧ t ∉ l1 := by
  intro l
  induction l with
  | nil => intro h; exact absurd h (List.not_mem_nil t)
  | cons a l ih =>
    intro h
    rcases eq_or_ne a t with rfl | hat
    · exact ⟨[], l, rfl, List.not_mem_nil a⟩
    · have hmem : t ∈ l := by
        rcases List.mem_cons.mp h with h' | h'
        · exact absurd h'.symm hat
        · exact h'
      obtain ⟨l1, l2, hsplit, hnot⟩ := ih hmem
      exact ⟨a :: l1, l2, by rw [hsplit, List.cons_append],
        by rw [List.mem_cons]; push_neg; exact ⟨Ne.symm hat, hnot⟩⟩

/-- Splitting a walk at an inner occurrence of `t`, choosing the first
occurrence so that the prefix is `t`-free. -/
theorem walk_split_at_inner {α : Type} [DecidableEq α] {t : α} {p : List α}
    (ht : t ∈ interV p) :
    ∃ p1 p2, p = p1 ++ t :: p2 ∧ p1 ≠ [] ∧ p2 ≠ [] ∧ t ∉ p1.tail := by
  cases p with
  | nil => exact absurd ht (by simp [interV])
  | cons hd tl =>
    have ht' : t ∈ tl := List.mem_of_mem_dropLast ht
    obtain ⟨l1, l2, hsplit, hnot⟩ := exists_first_split ht'
    refine ⟨hd :: l1, l2, by rw [hsplit, List.cons_append], by simp, ?_, by simpa using hnot⟩
    intro hl2
    subst hl2
    rw [hsplit] at ht
    rw [interV, List.tail_cons, List.dropLast_concat] at ht
    exact hnot ht

/-! ## Exactness of the closure: the matrix value is the least walk cost -/

theorem pureFW_attained {n : ℕ} {m0 : Mat} :
    ∀ t, t ≤ n → ∀ i, i < n → ∀ j, j < n →
      ∃ p, IsWalkOn (· < n) i j p ∧ (∀ v ∈ interV p, v < t) ∧
        wcost (fun a b => matGet m0 a b) p = pureFW n m0 t i j := by
  intro t
  induction t with
  | zero =>
    intro _ i hi j hj
    refine ⟨[i, j], ⟨rfl, rfl, ?_⟩, by simp [interV], ?_⟩
    · intro v hv
      rcases List.mem_cons.mp hv with rfl | hv
      · exact hi
      · rcases List.mem_cons.mp hv with rfl | hv
        · exact hj
        · exact absurd hv (List.not_mem_nil v)
    · show matGet m0 i j + wcost _ [j] = pureFW n m0 0 i j
      rw [show wcost (fun a b => matGet m0 a b) [j] = 0 from rfl, add_zero]
      rfl
  | succ t ih =>
    intro ht i hi j hj
    have htn : t < n := by omega
    rcases min_cases (pureFW n m0 t i j) (pureFW n m0 t i t + pureFW n m0 t t j) with
      ⟨hmin, _⟩ | ⟨hmin, _⟩
    · obtain ⟨p, hwalk, hinter, hcost⟩ := ih (by omega) i hi j hj
      refine ⟨p, hwalk, fun v hv => by have := hinter v hv; omega, ?_⟩
      rw [hcost, pureFW, if_pos ⟨hi, hj⟩, hmin]
    · obtain ⟨p1, hw1, hint1, hc1⟩ := ih (by omega) i hi t htn
      obtain ⟨p2, hw2, hint2, hc2⟩ := ih (by omega) t htn j hj
      obtain ⟨p1', rfl⟩ := List.getLast?_eq_some_iff.mp hw1.2.1
      obtain ⟨p2', rfl⟩ := List.head?_eq_some_iff.mp hw2.1
      refine ⟨p1' ++ t :: p2', ⟨?_, ?_, ?_⟩, ?_, ?_⟩
      · cases p1' with
        | nil =>
          have hit : t = i := by simpa using hw1.1
          subst hit
          rfl
        | cons a p1'' =>
          rw [List.head?_append_of_ne_nil _ (by simp)]
          have := hw1.1
          rwa [List.head?_append_of_ne_nil _ (by simp)] at this
      · rw [List.getLast?_append_cons]
        exact hw2.2.1
      · intro v hv
        rcases List.mem_append.mp hv with hv | hv
        · exact hw1.2.2 v (List.mem_append.mpr (Or.inl hv))
        · exact hw2.2.2 v hv
      · intro v hv
        rw [interV] at hv
        cases p1' with
        | nil =>
          have : v ∈ interV (t :: p2') := hv
          have := hint2 v this
          omega
        | cons a p1'' =>
          rw [show ((a :: p1'') ++ t :: p2').tail = p1'' ++ t :: p2' from rfl,
            List.dropLast_append_cons] at hv
          rcases List.mem_append.mp hv with hv | hv
          · have : v ∈ interV ((a :: p1'') ++ [t]) := by
              rw [interV, show ((a :: p1'') ++ [t]).tail = p1'' ++ [t] from rfl,
                List.dropLast_concat]
              exact hv
            have := hint1 v this
            omega
          · cases p2' with
            | nil => exact absurd hv (by simp)
            | cons b p2'' =>
              rw [List.dropLast_cons_of_ne_nil (by simp)] at hv
              rcases List.mem_cons.mp hv with rfl | hv
              · omega
              · have : v ∈ interV (t :: b :: p2'') := by
                  rw [interV, List.tail_cons]
                  exact hv
                have := hint2 v this
                omega
      · rw [wcost_append_cons, hc1, hc2, pureFW, if_pos ⟨hi, hj⟩, hmin]

theorem pureFW_lb {n : ℕ} {m0 : Mat} (hnn : MatNN m0)
    (hdiag : ∀ i < n, matGet m0 i i = 0) :
    ∀ t, t ≤ n → ∀ N (p : List ℕ), p.length ≤ N → ∀ i j, i < n → j < n →
      IsWalkOn (· < n) i j p → (∀ v ∈ interV p, v < t) →
      pureFW n m0 t i j ≤ wcost (fun a b => matGet m0 a b) p := by
  intro t
  induction t with
  | zero =>
    intro _ N p _ i j hi hj hwalk hint
    cases p with
    | nil => exact absurd hwalk.1 (by simp)
    | cons a q =>
      have ha : a = i := by simpa using hwalk.1
      subst ha
      cases q with
      | nil =>
        have hij : a = j := by simpa using hwalk.2.1
        subst hij
        rw [show wcost (fun a b => matGet m0 a b) [a] = 0 from rfl, pureFW, hdiag a hi]
      | cons b q' =>
        cases q' with
        | nil =>
          have hbj : b = j := by simpa using hwalk.2.1
          subst hbj
          rw [show wcost (fun a b => matGet m0 a b) [a, b] =
            matGet m0 a b + wcost (fun a b => matGet m0 a b) [b] from rfl,
            show wcost (fun a b => matGet m0 a b) [b] = 0 from rfl, add_zero]
          exact le_of_eq rfl
        | cons e q'' =>
          exfalso
          have hbmem : b ∈ interV (a :: b :: e :: q'') := by
            rw [interV, List.tail_cons, List.dropLast_cons_of_ne_nil (by simp)]
            exact List.mem_cons_self b _
          have := hint b hbmem
          omega
  | succ t ih =>
    intro ht N
    induction N with
    | zero =>
      intro p hlen i j hi hj hwalk hint
      have hpnil : p = [] := List.eq_nil_of_length_eq_zero (by omega)
      subst hpnil
      exact absurd hwalk.1 (by simp)
    | succ N ihN =>
      intro p hlen i j hi hj hwalk hint
      by_cases hmem : t ∈ interV p
      · obtain ⟨p1, p2, hsplit, hp1, hp2, hnot⟩ := walk_split_at_inner hmem
        subst hsplit
        have htn : t < n := by omega
        obtain ⟨hd, rest, rfl⟩ : ∃ hd rest, p1 = hd :: rest := by
          cases p1 with
          | nil => exact absurd rfl hp1
          | cons y ys => exact ⟨y, ys, rfl⟩
        obtain ⟨x, p2', rfl⟩ : ∃ x p2', p2 = x :: p2' := by
          cases p2 with
          | nil => exact absurd rfl hp2
          | cons y ys => exact ⟨y, ys, rfl⟩
        have hhead : i = hd := by
          have := hwalk.1
          simp only [List.cons_append, List.head?_cons] at this
          exact (Option.some.inj this).symm
        subst hhead
        have hintp : ∀ v ∈ rest ++ t :: (x :: p2').dropLast, v < t + 1 := by
          intro v hv
          apply hint
          show v ∈ ((i :: rest) ++ t :: x :: p2').tail.dropLast
          rw [show ((i :: rest) ++ t :: x :: p2').tail = rest ++ t :: x :: p2' from rfl,
            List.dropLast_append_cons, List.dropLast_cons_of_ne_nil (by simp)]
          exact hv
        have hw1 : IsWalkOn (· < n) i t ((i :: rest) ++ [t]) := by
          refine ⟨by simp, List.getLast?_concat _, ?_⟩
          intro v hv
          rcases List.mem_append.mp hv with hv | hv
          · exact hwalk.2.2 v (List.mem_append.mpr (Or.inl hv))
          · have hvt : v = t := List.mem_singleton.mp hv
            subst hvt
            exact htn
        have hint1 : ∀ v ∈ interV ((i :: rest) ++ [t]), v < t := by
          intro v hv
          rw [interV, show ((i :: rest) ++ [t]).tail = rest ++ [t] from rfl,
            List.dropLast_concat] at hv
          have hv1 : v < t + 1 := hintp v (List.mem_append.mpr (Or.inl hv))
          have hv2 : v ≠ t := fun h => hnot (show t ∈ (i :: rest).tail from h ▸ hv)
          omega
        have hc1 := ih (by omega) ((i :: rest) ++ [t]).length ((i :: rest) ++ [t])
          le_rfl i t hi htn hw1 hint1
        have hlast : (t :: x :: p2').getLast? = some j := by
          have := hwalk.2.1
          rwa [List.getLast?_append_cons] at this
        have hw2 : IsWalkOn (· < n) t j (t :: x :: p2') := by
          refine ⟨rfl, hlast, ?_⟩
          intro v hv
          rcases List.mem_cons.mp hv with rfl | hv
          · exact htn
          · exact hwalk.2.2 v
              (List.mem_append.mpr (Or.inr (List.mem_cons.mpr (Or.inr hv))))
        have hint2 : ∀ v ∈ interV (t :: x :: p2'), v < t + 1 := by
          intro v hv
          rw [interV, List.tail_cons] at hv
          exact hintp v (List.mem_append.mpr (Or.inr (List.mem_cons.mpr (Or.inr hv))))
        have hlen2 : (t :: x :: p2').length ≤ N := by
          have hL : ((i :: rest) ++ t :: x :: p2').length ≤ N + 1 := hlen
          simp [List.length_append] at hL ⊢
          omega
        have hc2 := ihN (t :: x :: p2') hlen2 t j htn hj hw2 hint2
        have hdtrick : pureFW n m0 (t + 1) t j = pureFW n m0 t t j := by
          rw [pureFW, if_pos ⟨htn, hj⟩, pureFW_diag hnn hdiag t t htn, zero_add, min_self]
        calc pureFW n m0 (t + 1) i j
            ≤ pureFW n m0 t i t + pureFW n m0 t t j := by
              rw [pureFW, if_pos ⟨hi, hj⟩]
              exact min_le_right _ _
          _ = pureFW n m0 t i t + pureFW n m0 (t + 1) t j := by rw [hdtrick]
          _ ≤ wcost (fun a b => matGet m0 a b) ((i :: rest) ++ [t]) +
              wcost (fun a b => matGet m0 a b) (t :: x :: p2') := add_le_add hc1 hc2
          _ = wcost (fun a b => matGet m0 a b) ((i :: rest) ++ t :: x :: p2') :=
              (wcost_append_cons _ _ _ _).symm
      · have hint' : ∀ v ∈ interV p, v < t := by
          intro v hv
          have h1 := hint v hv
          have h2 : v ≠ t := fun h => hmem (h ▸ hv)
          omega
        have hrec := ih (by omega) p.length p le_rfl i j hi hj hwalk hint'
        calc pureFW n m0 (t + 1) i j ≤ pureFW n m0 t i j := by
              rw [pureFW, if_pos ⟨hi, hj⟩]
              exact min_le_left _ _
          _ ≤ _ := hrec

/-- The closed matrix entry is the least cost of any walk between bounded indices,
costed by the initial matrix. -/
theorem matrix_isLeast (g : NavigationGraph) (hw : ∀ e ∈ g.edges, 0 ≤ e.weight)
    (hsl : ∀ e ∈ g.edges, e.start ≠ e.«end») {a b : ℕ}
    (ha : a < g.sortedNodes.length) (hb : b < g.sortedNodes.length) :
    IsLeast (walkCosts (· < g.sortedNodes.length)
      (fun i j => matGet g.initMatrix i j) a b) (matGet g.matrix a b) := by
  constructor
  · obtain ⟨p, hwalk, _, hcost⟩ :=
      @pureFW_attained g.sortedNodes.length g.initMatrix g.sortedNodes.length
        le_rfl a ha b hb
    exact ⟨p, hwalk, by rw [hcost, matrix_eq_pureFW g hw]⟩
  · rintro x ⟨p, hwalk, rfl⟩
    rw [matrix_eq_pureFW g hw]
    exact pureFW_lb (matNN_initMatrix g hw) (diag_initMatrix g hsl)
      g.sortedNodes.length le_rfl p.length p le_rfl a b ha hb hwalk
      (fun v hv => hwalk.2.2 v (interV_subset p v hv))

/-! ## Adjacency entries, arc weights and the selection scan -/

theorem entryMin_cons (q : String × ℚ) (L : List (String × ℚ)) (v : String) :
    entryMin (q :: L) v =
      if q.1 = v then min (↑q.2) (entryMin L v) else entryMin L v := by
  rw [entryMin, List.filter_cons]
  split_ifs with h1 h2 h3
  · rfl
  · exact absurd (of_decide_eq_true h1) h2
  · exact absurd (decide_eq_true h3) (by simpa using h1)
  · rfl

theorem entryMin_eq_top {L : List (String × ℚ)} {v : String}
    (h : ∀ p ∈ L, p.1 ≠ v) : entryMin L v = ⊤ := by
  induction L with
  | nil => rfl
  | cons q L ih =>
    rw [entryMin_cons, if_neg (h q (List.mem_cons_self q L)),
      ih (fun p hp => h p (List.mem_cons_of_mem q hp))]

theorem entryMin_nonneg {L : List (String × ℚ)} (h : ∀ p ∈ L, 0 ≤ p.2) (v : String) :
    0 ≤ entryMin L v := by
  induction L with
  | nil => exact le_top
  | cons q L ih =>
    rw [entryMin_cons]
    have hq : (0 : W) ≤ ↑q.2 := (W.zero_le_coe q.2).mpr (h q (List.mem_cons_self q L))
    have hL : 0 ≤ entryMin L v := ih (fun p hp => h p (List.mem_cons_of_mem q hp))
    split
    · exact le_min hq hL
    · exact hL

theorem entryMin_const {L : List (String × ℚ)} {v : String} {w : ℚ}
    (hex : ∃ p ∈ L, p.1 = v) (hall : ∀ p ∈ L, p.1 = v → p.2 = w) :
    entryMin L v = ↑w := by
  induction L with
  | nil => exact absurd hex (by simp)
  | cons q L ih =>
    rw [entryMin_cons]
    by_cases hq : q.1 = v
    · rw [if_pos hq, hall q (List.mem_cons_self q L) hq]
      by_cases hex' : ∃ p ∈ L, p.1 = v
      · rw [ih hex' (fun p hp => hall p (List.mem_cons_of_mem q hp)), min_self]
      · push_neg at hex'
        rw [entryMin_eq_top hex', min_eq_left le_top]
    · rw [if_neg hq]
      rcases hex with ⟨p, hp, hpv⟩
      rcases List.mem_cons.mp hp with rfl | hp'
      · exact absurd hpv hq
      · exact ih ⟨p, hp', hpv⟩ (fun p hp => hall p (List.mem_cons_of_mem q hp))

theorem adjacencyOf_weight_nonneg {E : List NavigationEdge}
    (hw : ∀ e ∈ E, 0 ≤ e.weight) {u : String} :
    ∀ p ∈ adjacencyOf E u, 0 ≤ p.2 := by
  rintro ⟨x, w⟩ hp
  obtain ⟨e, he, h⟩ := (adjacencyOf_mem_iff E u x w).mp hp
  rcases h with ⟨_, _, hwe⟩ | ⟨_, _, _, hwe⟩ <;> exact hwe ▸ hw e he

theorem arcW_nonneg {E : List NavigationEdge} (hw : ∀ e ∈ E, 0 ≤ e.weight)
    (u v : String) : 0 ≤ arcW E u v :=
  entryMin_nonneg (adjacencyOf_weight_nonneg hw) v

theorem selectMin_mem (d : String → W) :
    ∀ (l : List String) (best : String), selectMin d best l ∈ best :: l := by
  intro l
  induction l with
  | nil => intro best; exact List.mem_singleton.mpr rfl
  | cons x xs ih =>
    intro best
    rw [selectMin]
    rcases List.mem_cons.mp (ih (if d x < d best then x else best)) with h | h
    · rw [h]
      split
      · exact List.mem_cons_of_mem _ (List.mem_cons_self x xs)
      · exact List.mem_cons_self _ _
    · exact List.mem_cons_of_mem _ (List.mem_cons_of_mem x h)

theorem selectMin_le (d : String → W) :
    ∀ (l : List String) (best : String), ∀ v ∈ best :: l, d (selectMin d best l) ≤ d v := by
  intro l
  induction l with
  | nil =>
    intro best v hv
    rw [List.mem_singleton.mp hv]
    exact le_rfl
  | cons x xs ih =>
    intro best v hv
    rw [selectMin]
    have hbest : d (selectMin d (if d x < d best then x else best) xs) ≤
        d (if d x < d best then x else best) :=
      ih _ _ (List.mem_cons_self _ _)
    rcases List.mem_cons.mp hv with rfl | hv'
    · refine le_trans hbest ?_
      split
      · exact le_of_lt (by assumption)
      · exact le_rfl
    · rcases List.mem_cons.mp hv' with rfl | hv''
      · refine le_trans hbest ?_
        split
        · exact le_rfl
        · exact le_of_not_lt (by assumption)
      · exact ih _ v (List.mem_cons_of_mem _ hv'')

theorem wcost_cons_head {α : Type} {c : α → α → W} {l : List α} {b : α}
    (hb : l.head? = some b) (a : α) : wcost c (a :: l) = c a b + wcost c l := by
  cases l with
  | nil => exact absurd hb (by simp)
  | cons x xs =>
    have : x = b := by simpa using hb
    subst this
    rfl

/-! ## What one pass of relaxation does to the state -/

theorem relaxEntry_unvisited (current : String) (st : DState) (q : String × ℚ) :
    (relaxEntry current st q).unvisited = st.unvisited := by
  rw [relaxEntry]
  split
  · dsimp only
    split <;> rfl
  · rfl

theorem relaxEntry_skip {current : String} {st : DState} {q : String × ℚ}
    (hq : q.1 ∉ st.unvisited) : relaxEntry current st q = st := by
  rw [relaxEntry, if_neg hq]

theorem relaxEntry_dist {current : String} {st : DState} {q : String × ℚ}
    (hq : q.1 ∈ st.unvisited) (v : String) :
    (relaxEntry current st q).dist v =
      if v = q.1 then min (st.dist v) (st.dist current + ↑q.2) else st.dist v := by
  rw [relaxEntry, if_pos hq]
  dsimp only
  by_cases hlt : st.dist current + ↑q.2 < st.dist q.1
  · rw [if_pos hlt]
    dsimp only
    by_cases hv : v = q.1
    · rw [if_pos hv, if_pos hv, hv]
      exact (min_eq_right hlt.le).symm
    · rw [if_neg hv, if_neg hv]
  · rw [if_neg hlt]
    by_cases hv : v = q.1
    · rw [if_pos hv, hv]
      exact (min_eq_left (le_of_not_lt hlt)).symm
    · rw [if_neg hv]

theorem relaxEntry_prev {current : String} {st : DState} {q : String × ℚ}
    (hq : q.1 ∈ st.unvisited) (v : String) :
    (relaxEntry current st q).prev v =
      if v = q.1 ∧ st.dist current + ↑q.2 < st.dist q.1 then some current
      else st.prev v := by
  rw [relaxEntry, if_pos hq]
  dsimp only
  by_cases hlt : st.dist current + ↑q.2 < st.dist q.1
  · rw [if_pos hlt]
    dsimp only
    by_cases hv : v = q.1
    · rw [if_pos hv, if_pos ⟨hv, hlt⟩]
    · rw [if_neg hv, if_neg (by tauto)]
  · rw [if_neg hlt, if_neg (by tauto)]

theorem relaxFold_spec (current : String) (L : List (String × ℚ)) :
    ∀ st : DState, current ∉ st.unvisited →
      (relaxFold current st L).unvisited = st.unvisited ∧
      (∀ v, v ∉ st.unvisited →
        (relaxFold current st L).dist v = st.dist v ∧
        (relaxFold current st L).prev v = st.prev v) ∧
      (∀ v ∈ st.unvisited,
        (relaxFold current st L).dist v =
          min (st.dist v) (st.dist current + entryMin L v)) ∧
      (∀ v ∈ st.unvisited,
        ((relaxFold current st L).prev v = st.prev v ∧
          (relaxFold current st L).dist v = st.dist v) ∨
        ((relaxFold current st L).prev v = some current ∧
          (relaxFold current st L).dist v =
            st.dist current + entryMin L v)) := by
  induction L with
  | nil =>
    intro st hcur
    refine ⟨rfl, fun v _ => ⟨rfl, rfl⟩, ?_, ?_⟩
    · intro v _
      rw [show entryMin [] v = ⊤ from rfl, add_top, min_eq_left le_top]
      rfl
    · intro v _
      exact Or.inl ⟨rfl, rfl⟩
  | cons q L ih =>
    intro st hcur
    rw [show relaxFold current st (q :: L) =
      relaxFold current (relaxEntry current st q) L from rfl]
    by_cases hq1 : q.1 ∈ st.unvisited
    · have hne : current ≠ q.1 := fun h => hcur (h ▸ hq1)
      have huv : (relaxEntry current st q).unvisited = st.unvisited :=
        relaxEntry_unvisited current st q
      have hcur' : current ∉ (relaxEntry current st q).unvisited := huv ▸ hcur
      have hdcur : (relaxEntry current st q).dist current = st.dist current := by
        rw [relaxEntry_dist hq1, if_neg hne]
      obtain ⟨ha, hb, hc, hd⟩ := ih (relaxEntry current st q) hcur'
      refine ⟨by rw [ha, huv], ?_, ?_, ?_⟩
      · intro v hv
        have hvq : v ≠ q.1 := fun h => hv (h ▸ hq1)
        obtain ⟨hdv, hpv⟩ := hb v (huv ▸ hv)
        exact ⟨by rw [hdv, relaxEntry_dist hq1, if_neg hvq],
          by rw [hpv, relaxEntry_prev hq1, if_neg (by tauto)]⟩
      · intro v hv
        have hcv := hc v (huv ▸ hv)
        by_cases hvq : v = q.1
        · subst hvq
          rw [hcv, relaxEntry_dist hq1, if_pos rfl, hdcur, entryMin_cons, if_pos rfl,
            min_assoc, min_add_add_left]
        · rw [hcv, relaxEntry_dist hq1, if_neg hvq, hdcur, entryMin_cons,
            if_neg (fun h => hvq h.symm)]
      · intro v hv
        have hcv := hc v (huv ▸ hv)
        have hdv := hd v (huv ▸ hv)
        by_cases hvq : v = q.1
        · subst hvq
          by_cases hupd : st.dist current + ↑q.2 < st.dist q.1
          · refine Or.inr ⟨?_, ?_⟩
            · rcases hdv with ⟨hp, _⟩ | ⟨hp, _⟩
              · rw [hp, relaxEntry_prev hq1, if_pos ⟨rfl, hupd⟩]
              · exact hp
            · rw [hcv, relaxEntry_dist hq1, if_pos rfl, hdcur, entryMin_cons, if_pos rfl,
                min_assoc, min_add_add_left]
              refine min_eq_right ?_
              refine le_of_lt (lt_of_le_of_lt ?_ hupd)
              exact add_le_add_left (min_le_left _ _) _
          · have hent : relaxEntry current st q = st := by
              rw [relaxEntry, if_pos hq1]
              dsimp only
              rw [if_neg hupd]
            rw [hent] at hdv hcv ⊢
            rcases hdv with ⟨hp, hdd⟩ | ⟨hp, hdd⟩
            · exact Or.inl ⟨hp, hdd⟩
            · refine Or.inr ⟨hp, ?_⟩
              have hemin : entryMin (q :: L) q.1 = min (↑q.2) (entryMin L q.1) := by
                rw [entryMin_cons, if_pos rfl]
              have hkey1 : st.dist current + entryMin L q.1 ≤ st.dist q.1 := by
                rw [hdd] at hcv
                exact min_eq_right_iff.mp hcv.symm
              have hkey2 : st.dist q.1 ≤ st.dist current + ↑q.2 := le_of_not_lt hupd
              rw [hdd, hemin, ← min_add_add_left]
              exact le_antisymm (le_min (le_trans hkey1 hkey2) le_rfl) (min_le_right _ _)
        · have hdvq : (relaxEntry current st q).dist v = st.dist v := by
            rw [relaxEntry_dist hq1, if_neg hvq]
          have hpvq : (relaxEntry current st q).prev v = st.prev v := by
            rw [relaxEntry_prev hq1, if_neg (by tauto)]
          have hent : entryMin (q :: L) v = entryMin L v := by
            rw [entryMin_cons, if_neg (fun h => hvq h.symm)]
          rcases hdv with ⟨hp, hdd⟩ | ⟨hp, hdd⟩
          · exact Or.inl ⟨by rw [hp, hpvq], by rw [hdd, hdvq]⟩
          · exact Or.inr ⟨hp, by rw [hdd, hdcur, hent]⟩
    · rw [relaxEntry_skip hq1]
      obtain ⟨ha, hb, hc, hd⟩ := ih st hcur
      refine ⟨ha, hb, ?_, ?_⟩
      · intro v hv
        have hvq : q.1 ≠ v := fun h => hq1 (h ▸ hv)
        rw [hc v hv, entryMin_cons, if_neg hvq]
      · intro v hv
        have hvq : q.1 ≠ v := fun h => hq1 (h ▸ hv)
        rcases hd v hv with h | ⟨hp, hdd⟩
        · exact Or.inl h
        · exact Or.inr ⟨hp, by rw [hdd, entryMin_cons, if_neg hvq]⟩

/-! ## The invariant holds initially and is preserved by the loop body -/

theorem dinv_init (g : NavigationGraph) (s : String) (hnodup : g.nodes.Nodup) :
    DInv g s (dijkstraInit g s) := by
  refine ⟨fun v hv => hv, hnodup, ?_, ?_, ?_, ?_, ?_, ?_, ?_⟩
  · intro v
    show (0 : W) ≤ if v = s then 0 else ⊤
    split
    · exact le_rfl
    · exact le_top
  · show (if s = s then (0 : W) else ⊤) = 0
    rw [if_pos rfl]
  · intro u hu hnot
    exact absurd hu hnot
  · intro u hu hnot
    exact absurd hu hnot
  · intro v u h
    exact absurd h (by simp [dijkstraInit])
  · intro v hd hp
    by_cases hv : v = s
    · exact hv
    · exact absurd (show (dijkstraInit g s).dist v = ⊤ from if_neg hv) hd
  · exact ⟨fun _ => 0, 0, by simp [dijkstraInit], fun v _ => rfl,
      fun v u h => by simp [dijkstraInit] at h⟩

theorem dinv_step (g : NavigationGraph) (s : String) {st : DState}
    (hinv : DInv g s st) (hw : ∀ e ∈ g.edges, 0 ≤ e.weight)
    {current : String} (hcm : current ∈ st.unvisited)
    (hcle : ∀ v ∈ st.unvisited, st.dist current ≤ st.dist v) :
    DInv g s (relaxFold current
      { unvisited := st.unvisited.erase current, dist := st.dist, prev := st.prev }
      (adjacencyOf g.edges current)) := by
  have hcnodes : current ∈ g.nodes := hinv.sub current hcm
  have hcur1 : current ∉ st.unvisited.erase current :=
    fun h => ((hinv.nodup.mem_erase_iff).mp h).1 rfl
  obtain ⟨ha, hb, hc, hd⟩ := relaxFold_spec current (adjacencyOf g.edges current)
    { unvisited := st.unvisited.erase current, dist := st.dist, prev := st.prev } hcur1
  have ha' : (relaxFold current
      { unvisited := st.unvisited.erase current, dist := st.dist, prev := st.prev }
      (adjacencyOf g.edges current)).unvisited = st.unvisited.erase current := ha
  have hb' : ∀ v, v ∉ st.unvisited.erase current →
      (relaxFold current
        { unvisited := st.unvisited.erase current, dist := st.dist, prev := st.prev }
        (adjacencyOf g.edges current)).dist v = st.dist v ∧
      (relaxFold current
        { unvisited := st.unvisited.erase current, dist := st.dist, prev := st.prev }
        (adjacencyOf g.edges current)).prev v = st.prev v := hb
  have hc' : ∀ v ∈ st.unvisited.erase current,
      (relaxFold current
        { unvisited := st.unvisited.erase current, dist := st.dist, prev := st.prev }
        (adjacencyOf g.edges current)).dist v =
      min (st.dist v) (st.dist current + arcW g.edges current v) := hc
  have hd' : ∀ v ∈ st.unvisited.erase current,
      ((relaxFold current
        { unvisited := st.unvisited.erase current, dist := st.dist, prev := st.prev }
        (adjacencyOf g.edges current)).prev v = st.prev v ∧
       (relaxFold current
        { unvisited := st.unvisited.erase current, dist := st.dist, prev := st.prev }
        (adjacencyOf g.edges current)).dist v = st.dist v) ∨
      ((relaxFold current
        { unvisited := st.unvisited.erase current, dist := st.dist, prev := st.prev }
        (adjacencyOf g.edges current)).prev v = some current ∧
       (relaxFold current
        { unvisited := st.unvisited.erase current, dist := st.dist, prev := st.prev }
        (adjacencyOf g.edges current)).dist v =
        st.dist current + arcW g.edges current v) := hd
  have hdcur := (hb' current hcur1).1
  have hmem_of : ∀ {v : String}, v ∈ st.unvisited.erase current → v ∈ st.unvisited :=
    fun h => List.mem_of_mem_erase h
  have hnot_of : ∀ {v : String}, v ∉ st.unvisited.erase current → v ≠ current →
      v ∉ st.unvisited :=
    fun h hne hv => h ((List.mem_erase_of_ne hne).mpr hv)
  have hnn' : ∀ v, 0 ≤ (relaxFold current
      { unvisited := st.unvisited.erase current, dist := st.dist, prev := st.prev }
      (adjacencyOf g.edges current)).dist v := by
    intro v
    by_cases hv : v ∈ st.unvisited.erase current
    · rw [hc' v hv]
      exact le_min (hinv.nonneg v)
        (add_nonneg (hinv.nonneg current) (arcW_nonneg hw current v))
    · rw [(hb' v hv).1]
      exact hinv.nonneg v
  refine ⟨?_, ?_, hnn', ?_, ?_, ?_, ?_, ?_, ?_⟩
  · intro v hv
    rw [ha'] at hv
    exact hinv.sub v (hmem_of hv)
  · rw [ha']
    exact hinv.nodup.erase current
  · by_cases hs : s ∈ st.unvisited.erase current
    · rw [hc' s hs, show st.dist s = 0 from hinv.dist_s]
      exact min_eq_left (add_nonneg (hinv.nonneg current) (arcW_nonneg hw current s))
    · rw [(hb' s hs).1]
      exact hinv.dist_s
  · intro x hx hnx v hv
    rw [ha'] at hnx
    by_cases hxc : x = current
    · subst hxc
      rw [hdcur]
      by_cases hvm : v ∈ st.unvisited.erase x
      · rw [hc' v hvm]
        exact min_le_right _ _
      · rw [(hb' v hvm).1]
        by_cases hvc : v = x
        · subst hvc
          exact le_add_of_nonneg_right (arcW_nonneg hw v v)
        · exact le_trans (hinv.mono v hv (hnot_of hvm hvc) x hcm)
            (le_add_of_nonneg_right (arcW_nonneg hw x v))
    · have hxold : x ∉ st.unvisited := hnot_of hnx hxc
      rw [(hb' x hnx).1]
      have hold := hinv.relaxed x hx hxold v hv
      by_cases hvm : v ∈ st.unvisited.erase current
      · rw [hc' v hvm]
        exact le_trans (min_le_left _ _) hold
      · rw [(hb' v hvm).1]
        exact hold
  · intro x hx hnx y hy
    rw [ha'] at hnx hy
    rw [hc' y hy]
    by_cases hxc : x = current
    · subst hxc
      rw [hdcur]
      exact le_min (hcle y (hmem_of hy))
        (le_add_of_nonneg_right (arcW_nonneg hw x y))
    · have hxold : x ∉ st.unvisited := hnot_of hnx hxc
      rw [(hb' x hnx).1]
      exact le_min (hinv.mono x hx hxold y (hmem_of hy))
        (le_trans (hinv.mono x hx hxold current hcm)
          (le_add_of_nonneg_right (arcW_nonneg hw current y)))
  · intro v w hp
    by_cases hvm : v ∈ st.unvisited.erase current
    · rcases hd' v hvm with ⟨hp1, hd1⟩ | ⟨hp1, hd1⟩
      · rw [hp1] at hp
        obtain ⟨hw1, hw2, hw3⟩ := hinv.prev_spec v w hp
        have hwnot : w ∉ st.unvisited.erase current := fun h => hw2 (hmem_of h)
        refine ⟨hw1, fun h => hwnot (ha' ▸ h), ?_⟩
        rw [hd1, (hb' w hwnot).1]
        exact hw3
      · rw [hp1] at hp
        obtain rfl := Option.some.inj hp
        refine ⟨hcnodes, fun h => hcur1 (ha' ▸ h), ?_⟩
        rw [hd1, hdcur]
    · rw [(hb' v hvm).2] at hp
      obtain ⟨hw1, hw2, hw3⟩ := hinv.prev_spec v w hp
      have hwnot : w ∉ st.unvisited.erase current := fun h => hw2 (hmem_of h)
      refine ⟨hw1, fun h => hwnot (ha' ▸ h), ?_⟩
      rw [(hb' v hvm).1, (hb' w hwnot).1]
      exact hw3
  · intro v hd0 hp0
    by_cases hvm : v ∈ st.unvisited.erase current
    · rcases hd' v hvm with ⟨hp1, hd1⟩ | ⟨hp1, _⟩
      · rw [hd1] at hd0
        rw [hp1] at hp0
        exact hinv.prev_none v hd0 hp0
      · rw [hp1] at hp0
        exact absurd hp0 (by simp)
    · rw [(hb' v hvm).1] at hd0
      rw [(hb' v hvm).2] at hp0
      exact hinv.prev_none v hd0 hp0
  · obtain ⟨f, K, hK, hfu, hfl⟩ := hinv.ghost
    refine ⟨fun v => if v ∈ st.unvisited.erase current then K + 1 else f v, K + 1,
      ?_, ?_, ?_⟩
    · rw [ha', List.length_erase_of_mem hcm]
      have hlen : 1 ≤ st.unvisited.length := List.length_pos.mpr
        (List.ne_nil_of_mem hcm)
      omega
    · intro v hv
      rw [ha'] at hv
      show (if v ∈ st.unvisited.erase current then K + 1 else f v) = K + 1
      rw [if_pos hv]
    · intro v w hp
      dsimp only
      by_cases hvm : v ∈ st.unvisited.erase current
      · rcases hd' v hvm with ⟨hp1, _⟩ | ⟨hp1, _⟩
        · rw [hp1] at hp
          obtain ⟨hl1, hl2⟩ := hfl v w hp
          have hwnot : w ∉ st.unvisited.erase current :=
            fun h => (hinv.prev_spec v w hp).2.1 (hmem_of h)
          rw [if_pos hvm, if_neg hwnot]
          omega
        · rw [hp1] at hp
          obtain rfl := Option.some.inj hp
          rw [if_pos hvm, if_neg hcur1, hfu current hcm]
          omega
      · rw [(hb' v hvm).2] at hp
        obtain ⟨hl1, hl2⟩ := hfl v w hp
        have hwnot : w ∉ st.unvisited.erase current :=
          fun h => (hinv.prev_spec v w hp).2.1 (hmem_of h)
        rw [if_neg hvm, if_neg hwnot]
        omega

theorem mem_of_getLast?_some {α : Type} {l : List α} {a : α}
    (h : l.getLast? = some a) : a ∈ l := by
  rcases List.getLast?_eq_some_iff.mp h with ⟨l', rfl⟩
  simp

/-- Any walk from the start to `z` costs at least `min (dist z) B`, for any
lower bound `B` of the tentative distances of the unvisited nodes. -/
theorem dinv_walk_bound (g : NavigationGraph) (s : String) {st : DState}
    (hinv : DInv g s st) (hw : ∀ e ∈ g.edges, 0 ≤ e.weight) (B : W)
    (hB : ∀ v ∈ st.unvisited, B ≤ st.dist v) :
    ∀ (q : List String) (z : String), IsWalkOn (· ∈ g.nodes) s z q →
      min (st.dist z) B ≤ wcost (arcW g.edges) q := by
  intro q
  induction q using List.reverseRecOn with
  | nil =>
    intro z hwalk
    exact absurd hwalk.1 (by simp)
  | append_singleton q' z' ih =>
    intro z hwalk
    have hz : z = z' := by
      have := hwalk.2.1
      rw [List.getLast?_concat] at this
      exact (Option.some.inj this).symm
    subst hz
    cases q' with
    | nil =>
      have hzs : z = s := by simpa using hwalk.1
      subst hzs
      show min (st.dist z) B ≤ 0
      rw [show st.dist z = 0 from hinv.dist_s]
      exact min_le_left 0 B
    | cons h0 t0 =>
      obtain ⟨y, hy⟩ : ∃ y, (h0 :: t0).getLast? = some y :=
        ⟨(h0 :: t0).getLast (by simp), List.getLast?_eq_getLast _ (by simp)⟩
      have hwalk' : IsWalkOn (· ∈ g.nodes) s y (h0 :: t0) := by
        refine ⟨?_, hy, ?_⟩
        · have hh := hwalk.1
          rwa [List.head?_append_of_ne_nil _ (by simp)] at hh
        · intro v hv
          exact hwalk.2.2 v (List.mem_append.mpr (Or.inl hv))
      have hIH := ih y hwalk'
      rw [wcost_concat (arcW g.edges) (h0 :: t0) y z hy]
      by_cases hyu : y ∈ st.unvisited
      · have h1 : min (st.dist y) B = B := min_eq_right (hB y hyu)
        rw [h1] at hIH
        refine le_trans (min_le_right _ _) (le_trans hIH ?_)
        exact le_add_of_nonneg_right (arcW_nonneg hw y z)
      · have hynodes : y ∈ g.nodes := hwalk'.2.2 y (mem_of_getLast?_some hy)
        have hznodes : z ∈ g.nodes :=
          hwalk.2.2 z (List.mem_append.mpr (Or.inr (by simp)))
        have hrel := hinv.relaxed y hynodes hyu z hznodes
        rcases min_cases (st.dist y) B with ⟨h1, _⟩ | ⟨h1, _⟩
        · rw [h1] at hIH
          refine le_trans (min_le_left _ _) (le_trans hrel ?_)
          exact add_le_add_right hIH _
        · rw [h1] at hIH
          refine le_trans (min_le_right _ _) (le_trans hIH ?_)
          exact le_add_of_nonneg_right (arcW_nonneg hw y z)

/-- Running the loop with enough fuel preserves the invariant and makes the
destination distance a lower bound of every walk cost to the destination. -/
theorem dijkstraLoop_exact (g : NavigationGraph) (s e : String)
    (hw : ∀ e' ∈ g.edges, 0 ≤ e'.weight) :
    ∀ (fuel : ℕ) (st : DState), DInv g s st → st.unvisited.length < fuel →
      DInv g s (dijkstraLoop g e fuel st) ∧
      (∀ q, IsWalkOn (· ∈ g.nodes) s e q →
        (dijkstraLoop g e fuel st).dist e ≤ wcost (arcW g.edges) q) := by
  intro fuel
  induction fuel with
  | zero =>
    intro st _ hlen
    exact absurd hlen (by omega)
  | succ fuel ih =>
    intro st hinv hlen
    obtain ⟨unv, d, pr⟩ := st
    cases unv with
    | nil =>
      rw [show dijkstraLoop g e (fuel + 1) ⟨[], d, pr⟩ = ⟨[], d, pr⟩ from rfl]
      refine ⟨hinv, ?_⟩
      intro q hq
      have hbd := dinv_walk_bound g s hinv hw ⊤
        (fun v hv => absurd hv (List.not_mem_nil v)) q e hq
      rwa [min_eq_left le_top] at hbd
    | cons u us =>
      rw [show dijkstraLoop g e (fuel + 1) ⟨u :: us, d, pr⟩ =
        (if d (selectMin d u us) = ⊤ then ⟨u :: us, d, pr⟩
         else if selectMin d u us = e then ⟨u :: us, d, pr⟩
         else dijkstraLoop g e fuel (relaxFold (selectMin d u us)
           { unvisited := (u :: us).erase (selectMin d u us), dist := d, prev := pr }
           (adjacencyOf g.edges (selectMin d u us)))) from rfl]
      by_cases h1 : d (selectMin d u us) = ⊤
      · rw [if_pos h1]
        refine ⟨hinv, ?_⟩
        intro q hq
        have hB : ∀ v ∈ (⟨u :: us, d, pr⟩ : DState).unvisited, (⊤ : W) ≤ d v := by
          intro v hv
          have hle := selectMin_le d us u v hv
          rwa [h1] at hle
        have hbd := dinv_walk_bound g s hinv hw ⊤ hB q e hq
        rwa [min_eq_left le_top] at hbd
      · rw [if_neg h1]
        by_cases h2 : selectMin d u us = e
        · rw [if_pos h2]
          refine ⟨hinv, ?_⟩
          intro q hq
          have hB : ∀ v ∈ (⟨u :: us, d, pr⟩ : DState).unvisited, d e ≤ d v := by
            intro v hv
            have hle := selectMin_le d us u v hv
            rwa [h2] at hle
          have hbd := dinv_walk_bound g s hinv hw (d e) hB q e hq
          rwa [min_self] at hbd
        · rw [if_neg h2]
          have hcm : selectMin d u us ∈ (⟨u :: us, d, pr⟩ : DState).unvisited :=
            selectMin_mem d us u
          have hcle : ∀ v ∈ (⟨u :: us, d, pr⟩ : DState).unvisited,
              d (selectMin d u us) ≤ d v :=
            selectMin_le d us u
          have hinv' := dinv_step g s hinv hw hcm hcle
          have hcur1 : selectMin d u us ∉ (u :: us).erase (selectMin d u us) :=
            fun h => ((hinv.nodup.mem_erase_iff).mp h).1 rfl
          have hauv := (relaxFold_spec (selectMin d u us)
            (adjacencyOf g.edges (selectMin d u us))
            { unvisited := (u :: us).erase (selectMin d u us), dist := d, prev := pr }
            hcur1).1
          have hlen' : (relaxFold (selectMin d u us)
              { unvisited := (u :: us).erase (selectMin d u us), dist := d, prev := pr }
              (adjacencyOf g.edges (selectMin d u us))).unvisited.length < fuel := by
            rw [show (relaxFold (selectMin d u us)
              { unvisited := (u :: us).erase (selectMin d u us), dist := d, prev := pr }
              (adjacencyOf g.edges (selectMin d u us))).unvisited =
                (u :: us).erase (selectMin d u us) from hauv,
              List.length_erase_of_mem hcm]
            have hlen2 : (u :: us).length < fuel + 1 := hlen
            simp only [List.length_cons] at hlen2 ⊢
            omega
          exact ih _ hinv' hlen'

/-- Reconstructing the path backwards from a reached node yields a walk from
the start whose cost is exactly the node's tentative distance. -/
theorem walkBack_spec (g : NavigationGraph) (s : String) {st : DState}
    (hinv : DInv g s st) {f : String → ℕ}
    (hf : ∀ v u, st.prev v = some u → f u < f v) :
    ∀ (fuel : ℕ) (c : String), c ∈ g.nodes → st.dist c ≠ ⊤ → f c < fuel →
      ∀ acc, ∃ r, walkBack st.prev fuel c acc = some (r ++ acc) ∧
        r.head? = some s ∧ r.getLast? = some c ∧ (∀ v ∈ r, v ∈ g.nodes) ∧
        wcost (arcW g.edges) r = st.dist c := by
  intro fuel
  induction fuel with
  | zero =>
    intro c _ _ hfc
    exact absurd hfc (by omega)
  | succ fuel ih =>
    intro c hcn hcd hfc acc
    cases hp : st.prev c with
    | none =>
      have hcs : c = s := hinv.prev_none c hcd hp
      refine ⟨[c], ?_, ?_, rfl, ?_, ?_⟩
      · rw [walkBack, hp]
        rfl
      · rw [show ([c] : List String).head? = some c from rfl, hcs]
      · intro v hv
        rw [List.mem_singleton.mp hv]
        exact hcn
      · rw [show wcost (arcW g.edges) [c] = 0 from rfl, hcs, hinv.dist_s]
    | some w =>
      obtain ⟨hwn, hwu, hwd⟩ := hinv.prev_spec c w hp
      have hwdne : st.dist w ≠ ⊤ := by
        intro htop
        rw [hwd, htop, top_add] at hcd
        exact hcd rfl
      have hfw : f w < fuel := by
        have := hf c w hp
        omega
      obtain ⟨r', hr1, hr2, hr3, hr4, hr5⟩ := ih w hwn hwdne hfw (c :: acc)
      have hr'ne : r' ≠ [] := by
        intro h
        rw [h] at hr2
        exact absurd hr2 (by simp)
      refine ⟨r' ++ [c], ?_, ?_, List.getLast?_concat _, ?_, ?_⟩
      · rw [walkBack, hp]
        show walkBack st.prev fuel w (c :: acc) = some ((r' ++ [c]) ++ acc)
        rw [hr1, List.append_assoc]
        rfl
      · rw [List.head?_append_of_ne_nil _ hr'ne]
        exact hr2
      · intro v hv
        rcases List.mem_append.mp hv with hv | hv
        · exact hr4 v hv
        · rw [List.mem_singleton.mp hv]
          exact hcn
      · rw [wcost_concat (arcW g.edges) r' w c hr3, hr5, hwd]

/-- `find_path` exactness: a returned path is a walk between the endpoints
whose total weight is the least walk cost between them. -/
theorem find_path_exact (g : NavigationGraph)
    (hnodup : g.nodes.Nodup) (hw : ∀ e ∈ g.edges, 0 ≤ e.weight)
    {s e : String} {p : List String} (hfp : g.find_path s e = some p) :
    IsWalkOn (· ∈ g.nodes) s e p ∧
    IsLeast (walkCosts (· ∈ g.nodes) (arcW g.edges) s e) (pathW g p) := by
  rw [NavigationGraph.find_path] at hfp
  by_cases hmem : s ∈ g.nodes ∧ e ∈ g.nodes
  swap
  · rw [if_neg hmem] at hfp
    exact absurd hfp (by simp)
  rw [if_pos hmem] at hfp
  by_cases hse : s = e
  · rw [if_pos hse] at hfp
    obtain rfl := Option.some.inj hfp
    subst hse
    have hwalk : IsWalkOn (· ∈ g.nodes) s s [s] :=
      ⟨rfl, rfl, fun v hv => by rw [List.mem_singleton.mp hv]; exact hmem.1⟩
    refine ⟨hwalk, ⟨[s], hwalk, rfl⟩, ?_⟩
    rintro x ⟨q, hq, rfl⟩
    exact le_of_eq_of_le (show pathW g [s] = 0 from rfl)
      (wcost_nonneg (arcW_nonneg hw) q)
  · rw [if_neg hse] at hfp
    by_cases hdtop :
        (dijkstraLoop g e (g.nodes.length + 1) (dijkstraInit g s)).dist e = ⊤
    · rw [if_pos hdtop] at hfp
      exact absurd hfp (by simp)
    · rw [if_neg hdtop] at hfp
      have hinv0 := dinv_init g s hnodup
      have hlen0 : (dijkstraInit g s).unvisited.length < g.nodes.length + 1 := by
        show g.nodes.length < g.nodes.length + 1
        omega
      obtain ⟨hinv', hlb⟩ := dijkstraLoop_exact g s e hw (g.nodes.length + 1)
        (dijkstraInit g s) hinv0 hlen0
      obtain ⟨f, K, hK, hfu, hfl⟩ := hinv'.ghost
      have hfe : f e < g.nodes.length + 1 := by
        cases hpe : (dijkstraLoop g e (g.nodes.length + 1)
            (dijkstraInit g s)).prev e with
        | none => exact absurd (hinv'.prev_none e hdtop hpe).symm hse
        | some w =>
          have := (hfl e w hpe).2
          omega
      obtain ⟨r, hr1, hr2, hr3, hr4, hr5⟩ := walkBack_spec g s hinv'
        (fun v u h => (hfl v u h).1) (g.nodes.length + 1) e hmem.2 hdtop hfe []
      rw [List.append_nil] at hr1
      rw [hr1] at hfp
      obtain rfl := Option.some.inj hfp
      have hwalk : IsWalkOn (· ∈ g.nodes) s e r := ⟨hr2, hr3, hr4⟩
      refine ⟨hwalk, ⟨r, hwalk, rfl⟩, ?_⟩
      rintro x ⟨q, hq, rfl⟩
      rw [pathW, hr5]
      exact hlb q hq

/-! ## The canonical ordering as a bijection between indices and node ids -/

theorem sortedNodes_nodup (g : NavigationGraph) (hnodup : g.nodes.Nodup) :
    g.sortedNodes.Nodup :=
  (List.perm_insertionSort _ g.nodes).nodup_iff.mpr hnodup

theorem nodeAt_nodeIndex (g : NavigationGraph) {v : String}
    (hv : v ∈ g.sortedNodes) : g.nodeAt (g.nodeIndex v) = v := by
  rw [NavigationGraph.nodeAt, List.getD_eq_getElem _ _ (nodeIndex_lt g hv)]
  exact sortedNodes_get_nodeIndex g hv

theorem nodeAt_mem (g : NavigationGraph) {k : ℕ} (hk : k < g.sortedNodes.length) :
    g.nodeAt k ∈ g.nodes := by
  rw [NavigationGraph.nodeAt, List.getD_eq_getElem _ _ hk]
  exact (mem_sortedNodes g _).mp (List.getElem_mem hk)

theorem nodeIndex_nodeAt (g : NavigationGraph) (hnodup : g.nodes.Nodup) {k : ℕ}
    (hk : k < g.sortedNodes.length) : g.nodeIndex (g.nodeAt k) = k := by
  have hmem : g.nodeAt k ∈ g.sortedNodes := by
    rw [NavigationGraph.nodeAt, List.getD_eq_getElem _ _ hk]
    exact List.getElem_mem hk
  have h1 : g.sortedNodes.get ⟨g.nodeIndex (g.nodeAt k), nodeIndex_lt g hmem⟩ =
      g.nodeAt k := sortedNodes_get_nodeIndex g hmem
  have h2 : g.nodeAt k = g.sortedNodes.get ⟨k, hk⟩ := by
    rw [NavigationGraph.nodeAt, List.getD_eq_getElem _ _ hk, List.get_eq_getElem]
  have h3 := h1.trans h2
  rw [List.get_eq_getElem, List.get_eq_getElem] at h3
  exact ((sortedNodes_nodup g hnodup).getElem_inj_iff).mp h3

/-! ## Arcs of an edge and the adjacency index -/

theorem mem_arcsOfEdge {e : NavigationEdge} {a : String × String × ℚ} :
    a ∈ arcsOfEdge e ↔ a = (e.start, e.«end», e.weight) ∨
      (e.bidirectional = true ∧ a = (e.«end», e.start, e.weight)) := by
  rw [arcsOfEdge, List.mem_cons, mem_ite_list, List.mem_singleton]

theorem adjacency_arc_iff {E : List NavigationEdge} {u x : String} {w : ℚ} :
    (x, w) ∈ adjacencyOf E u ↔ ∃ e ∈ E, (u, x, w) ∈ arcsOfEdge e := by
  rw [adjacencyOf_mem_iff]
  constructor
  · rintro ⟨e, he, ⟨h1, h2, h3⟩ | ⟨h1, h2, h3, h4⟩⟩
    · exact ⟨e, he, mem_arcsOfEdge.mpr (Or.inl (by rw [h1, h2, h3]))⟩
    · exact ⟨e, he, mem_arcsOfEdge.mpr (Or.inr ⟨h1, by rw [h2, h3, h4]⟩)⟩
  · rintro ⟨e, he, ha⟩
    rcases mem_arcsOfEdge.mp ha with h | ⟨hb, h⟩
    · rw [Prod.ext_iff, Prod.ext_iff] at h
      exact ⟨e, he, Or.inl ⟨h.1.symm, h.2.1.symm, h.2.2.symm⟩⟩
    · rw [Prod.ext_iff, Prod.ext_iff] at h
      exact ⟨e, he, Or.inr ⟨hb, h.1.symm, h.2.1.symm, h.2.2.symm⟩⟩

/-! ## The cell of the initial matrix holding a given ordered pair -/

theorem matGet_foldl_no_write (g : NavigationGraph) {n i j : ℕ} :
    ∀ (es : List NavigationEdge) {m : Mat}, MatDim n m →
      (∀ e ∈ es, ¬((i = g.nodeIndex e.start ∧ j = g.nodeIndex e.«end») ∨
        (e.bidirectional = true ∧ i = g.nodeIndex e.«end» ∧ j = g.nodeIndex e.start))) →
      matGet (es.foldl (edgeWrites g) m) i j = matGet m i j := by
  intro es
  induction es with
  | nil =>
    intro m _ _
    rfl
  | cons e es ih =>
    intro m hdim hno
    rw [List.foldl_cons,
      ih (matDim_edgeWrites g hdim e) (fun e' h => hno e' (List.mem_cons_of_mem _ h)),
      matGet_edgeWrites hdim]
    have h1 := hno e (List.mem_cons_self e es)
    rw [if_neg (fun hc => h1 (Or.inr ⟨hc.1, hc.2.1, hc.2.2.1⟩)),
      if_neg (fun hc => h1 (Or.inl ⟨hc.1, hc.2.1⟩))]

theorem matGet_foldl_write (g : NavigationGraph) {n i j : ℕ} (hi : i < n) (hj : j < n)
    {w : ℚ} :
    ∀ (es : List NavigationEdge) {m : Mat}, MatDim n m →
      (∃ e ∈ es, (i = g.nodeIndex e.start ∧ j = g.nodeIndex e.«end») ∨
        (e.bidirectional = true ∧ i = g.nodeIndex e.«end» ∧ j = g.nodeIndex e.start)) →
      (∀ e ∈ es, ((i = g.nodeIndex e.start ∧ j = g.nodeIndex e.«end») ∨
        (e.bidirectional = true ∧ i = g.nodeIndex e.«end» ∧ j = g.nodeIndex e.start)) →
        e.weight = w) →
      matGet (es.foldl (edgeWrites g) m) i j = ↑w := by
  intro es
  induction es with
  | nil =>
    rintro m _ ⟨e, he, _⟩ _
    exact absurd he (List.not_mem_nil e)
  | cons e es ih =>
    intro m hdim hex hall
    rw [List.foldl_cons]
    by_cases hex' : ∃ e' ∈ es, (i = g.nodeIndex e'.start ∧ j = g.nodeIndex e'.«end») ∨
        (e'.bidirectional = true ∧ i = g.nodeIndex e'.«end» ∧ j = g.nodeIndex e'.start)
    · exact ih (matDim_edgeWrites g hdim e) hex'
        (fun e' he' => hall e' (List.mem_cons_of_mem _ he'))
    · have hno : ∀ e' ∈ es, ¬((i = g.nodeIndex e'.start ∧ j = g.nodeIndex e'.«end») ∨
          (e'.bidirectional = true ∧ i = g.nodeIndex e'.«end» ∧
            j = g.nodeIndex e'.start)) :=
        fun e' he' hc => hex' ⟨e', he', hc⟩
      rw [matGet_foldl_no_write g es (matDim_edgeWrites g hdim e) hno,
        matGet_edgeWrites hdim]
      obtain ⟨e0, he0, hcond⟩ := hex
      rcases List.mem_cons.mp he0 with rfl | hmem
      · have hwe : e0.weight = w := hall e0 (List.mem_cons_self e0 es) hcond
        have hBfull : (e0.bidirectional = true ∧ i = g.nodeIndex e0.«end» ∧
              j = g.nodeIndex e0.start ∧ g.nodeIndex e0.«end» < n ∧
              g.nodeIndex e0.start < n) ∨
            (i = g.nodeIndex e0.start ∧ j = g.nodeIndex e0.«end» ∧
              g.nodeIndex e0.start < n ∧ g.nodeIndex e0.«end» < n) := by
          rcases hcond with ⟨h1, h2⟩ | ⟨hb, h1, h2⟩
          · exact Or.inr ⟨h1, h2, h1 ▸ hi, h2 ▸ hj⟩
          · exact Or.inl ⟨hb, h1, h2, h1 ▸ hi, h2 ▸ hj⟩
        split_ifs with hA hB
        · rw [hwe]
        · rw [hwe]
        · exact absurd hBfull (by tauto)
      · exact absurd hcond (hno e0 hmem)

/-- Off the diagonal, the cell of the matrix before the closure is exactly
the effective arc weight between the two node ids at those indices, given
consistent parallel arcs. -/
theorem initMatrix_eq_arcW (g : NavigationGraph) (hnodup : g.nodes.Nodup)
    (hval : ∀ e ∈ g.edges, e.start ∈ g.nodes ∧ e.«end» ∈ g.nodes)
    (hac : ArcConsistent g.edges) {i j : ℕ}
    (hi : i < g.sortedNodes.length) (hj : j < g.sortedNodes.length) (hij : i ≠ j) :
    matGet g.initMatrix i j = arcW g.edges (g.nodeAt i) (g.nodeAt j) := by
  have hIdx : ∀ x ∈ g.nodes, ∀ k, k < g.sortedNodes.length →
      (k = g.nodeIndex x ↔ x = g.nodeAt k) := by
    intro x hx k hk
    constructor
    · rintro rfl
      exact (nodeAt_nodeIndex g ((mem_sortedNodes g x).mpr hx)).symm
    · rintro rfl
      exact (nodeIndex_nodeAt g hnodup hk).symm
  have hCwCa : ∀ e ∈ g.edges,
      (((i = g.nodeIndex e.start ∧ j = g.nodeIndex e.«end») ∨
        (e.bidirectional = true ∧ i = g.nodeIndex e.«end» ∧ j = g.nodeIndex e.start)) ↔
       ((e.start = g.nodeAt i ∧ e.«end» = g.nodeAt j) ∨
        (e.bidirectional = true ∧ e.«end» = g.nodeAt i ∧ e.start = g.nodeAt j))) := by
    intro e he
    obtain ⟨hs, hn⟩ := hval e he
    rw [hIdx e.start hs i hi, hIdx e.«end» hn j hj, hIdx e.«end» hn i hi,
      hIdx e.start hs j hj]
  by_cases hcase : ∃ e ∈ g.edges,
      (e.start = g.nodeAt i ∧ e.«end» = g.nodeAt j) ∨
      (e.bidirectional = true ∧ e.«end» = g.nodeAt i ∧ e.start = g.nodeAt j)
  · obtain ⟨e0, he0, hca0⟩ := hcase
    have ha0 : (g.nodeAt i, g.nodeAt j, e0.weight) ∈ arcsOfEdge e0 := by
      rcases hca0 with ⟨h1, h2⟩ | ⟨hb, h1, h2⟩
      · exact mem_arcsOfEdge.mpr (Or.inl (by rw [h1, h2]))
      · exact mem_arcsOfEdge.mpr (Or.inr ⟨hb, by rw [h1, h2]⟩)
    have hallw : ∀ e ∈ g.edges, ∀ w',
        (g.nodeAt i, g.nodeAt j, w') ∈ arcsOfEdge e → w' = e0.weight := by
      intro e he w' ha
      exact hac e he e0 he0 _ ha _ ha0 rfl rfl
    have hmside : matGet g.initMatrix i j = ↑e0.weight := by
      rw [NavigationGraph.initMatrix]
      refine matGet_foldl_write g hi hj g.edges
        (matDim_zeroDiag (matDim_replicate _) _) ?_ ?_
      · refine ⟨e0, he0, (hCwCa e0 he0).mpr hca0⟩
      · intro e he hcw
        have hca := (hCwCa e he).mp hcw
        have ha : (g.nodeAt i, g.nodeAt j, e.weight) ∈ arcsOfEdge e := by
          rcases hca with ⟨h1, h2⟩ | ⟨hb, h1, h2⟩
          · exact mem_arcsOfEdge.mpr (Or.inl (by rw [h1, h2]))
          · exact mem_arcsOfEdge.mpr (Or.inr ⟨hb, by rw [h1, h2]⟩)
        exact hallw e he e.weight ha
    have haside : arcW g.edges (g.nodeAt i) (g.nodeAt j) = ↑e0.weight := by
      rw [arcW]
      refine entryMin_const ⟨(g.nodeAt j, e0.weight), ?_, rfl⟩ ?_
      · exact adjacency_arc_iff.mpr ⟨e0, he0, ha0⟩
      · rintro ⟨x, w'⟩ hp hx
        subst hx
        obtain ⟨e, he, ha⟩ := adjacency_arc_iff.mp hp
        exact hallw e he w' ha
    rw [hmside, haside]
  · have hmside : matGet g.initMatrix i j = ⊤ := by
      rw [NavigationGraph.initMatrix]
      rw [matGet_foldl_no_write g g.edges (matDim_zeroDiag (matDim_replicate _) _)
        (fun e he hc => hcase ⟨e, he, (hCwCa e he).mp hc⟩)]
      rw [matGet_zeroDiag (matDim_replicate _) le_rfl, if_neg (by tauto),
        matGet_replicate]
    have haside : arcW g.edges (g.nodeAt i) (g.nodeAt j) = ⊤ := by
      rw [arcW]
      refine entryMin_eq_top ?_
      rintro ⟨x, w'⟩ hp hx
      subst hx
      obtain ⟨e, he, ha⟩ := adjacency_arc_iff.mp hp
      rcases mem_arcsOfEdge.mp ha with h | ⟨hb, h⟩
      · rw [Prod.ext_iff, Prod.ext_iff] at h
        exact hcase ⟨e, he, Or.inl ⟨h.1.symm, h.2.1.symm⟩⟩
      · rw [Prod.ext_iff, Prod.ext_iff] at h
        exact hcase ⟨e, he, Or.inr ⟨hb, h.1.symm, h.2.1.symm⟩⟩
    rw [hmside, haside]

/-! ## Collapsing adjacent duplicates preserves endpoints and members -/

theorem dedupAdj_head? {α : Type} [DecidableEq α] :
    ∀ p : List α, (dedupAdj p).head? = p.head?
  | [] => rfl
  | [_] => rfl
  | a :: b :: r => by
    rw [dedupAdj]
    split
    · rename_i hab
      rw [dedupAdj_head? (b :: r), List.head?_cons, List.head?_cons, hab]
    · rfl

theorem dedupAdj_getLast? {α : Type} [DecidableEq α] :
    ∀ p : List α, (dedupAdj p).getLast? = p.getLast?
  | [] => rfl
  | [_] => rfl
  | a :: b :: r => by
    rw [dedupAdj]
    split
    · rw [dedupAdj_getLast? (b :: r), List.getLast?_cons_cons]
    · have hne : dedupAdj (b :: r) ≠ [] := by
        intro h
        have hh := dedupAdj_head? (b :: r)
        rw [h] at hh
        exact absurd hh.symm (by simp)
      obtain ⟨x, xs, hxs⟩ : ∃ x xs, dedupAdj (b :: r) = x :: xs := by
        cases hdd : dedupAdj (b :: r) with
        | nil => exact absurd hdd hne
        | cons x xs => exact ⟨x, xs, rfl⟩
      rw [hxs, List.getLast?_cons_cons, ← hxs, dedupAdj_getLast? (b :: r),
        List.getLast?_cons_cons]

theorem dedupAdj_subset {α : Type} [DecidableEq α] :
    ∀ p : List α, ∀ v ∈ dedupAdj p, v ∈ p
  | [] => fun v hv => hv
  | [_] => fun v hv => hv
  | a :: b :: r => by
    intro v hv
    rw [dedupAdj] at hv
    split at hv
    · exact List.mem_cons_of_mem a (dedupAdj_subset (b :: r) v hv)
    · rcases List.mem_cons.mp hv with rfl | hv'
      · exact List.mem_cons_self v _
      · exact List.mem_cons_of_mem a (dedupAdj_subset (b :: r) v hv')

/-! ## Transferring walk costs between indices and node ids -/

theorem dedup_cost_le (g : NavigationGraph) (hnodup : g.nodes.Nodup)
    (hval : ∀ e ∈ g.edges, e.start ∈ g.nodes ∧ e.«end» ∈ g.nodes)
    (hac : ArcConsistent g.edges) (hsl : ∀ e ∈ g.edges, e.start ≠ e.«end») :
    ∀ w : List ℕ, (∀ k ∈ w, k < g.sortedNodes.length) →
      wcost (arcW g.edges) (dedupAdj (w.map g.nodeAt)) ≤
        wcost (fun x y => matGet g.initMatrix x y) w
  | [] => fun _ => le_rfl
  | [_] => fun _ => le_rfl
  | a :: b :: r => by
    intro hmem
    have ha : a < g.sortedNodes.length := hmem a (List.mem_cons_self a _)
    have hb : b < g.sortedNodes.length :=
      hmem b (List.mem_cons_of_mem a (List.mem_cons_self b r))
    have hmem' : ∀ k ∈ b :: r, k < g.sortedNodes.length :=
      fun k hk => hmem k (List.mem_cons_of_mem a hk)
    have hIH := dedup_cost_le g hnodup hval hac hsl (b :: r) hmem'
    rw [List.map_cons, List.map_cons]
    rw [show wcost (fun x y => matGet g.initMatrix x y) (a :: b :: r) =
      matGet g.initMatrix a b +
        wcost (fun x y => matGet g.initMatrix x y) (b :: r) from rfl]
    by_cases hab : g.nodeAt a = g.nodeAt b
    · have haa : a = b := by
        have hcast := congrArg g.nodeIndex hab
        rwa [nodeIndex_nodeAt g hnodup ha, nodeIndex_nodeAt g hnodup hb] at hcast
      rw [dedupAdj, if_pos hab]
      subst haa
      rw [diag_initMatrix g hsl a ha, zero_add]
      rw [List.map_cons] at hIH
      exact hIH
    · have hne : a ≠ b := fun h => hab (by rw [h])
      rw [dedupAdj, if_neg hab]
      have hhead : (dedupAdj (g.nodeAt b :: List.map g.nodeAt r)).head? =
          some (g.nodeAt b) := by
        rw [dedupAdj_head?, List.head?_cons]
      rw [wcost_cons_head hhead]
      refine add_le_add ?_ ?_
      · rw [initMatrix_eq_arcW g hnodup hval hac ha hb hne]
      · rw [List.map_cons] at hIH
        exact hIH

theorem map_cost_le (g : NavigationGraph) (hnodup : g.nodes.Nodup)
    (hval : ∀ e ∈ g.edges, e.start ∈ g.nodes ∧ e.«end» ∈ g.nodes)
    (hac : ArcConsistent g.edges) (hsl : ∀ e ∈ g.edges, e.start ≠ e.«end»)
    (hw : ∀ e ∈ g.edges, 0 ≤ e.weight) :
    ∀ q : List String, (∀ v ∈ q, v ∈ g.nodes) →
      wcost (fun x y => matGet g.initMatrix x y) (q.map g.nodeIndex) ≤
        wcost (arcW g.edges) q
  | [] => fun _ => le_rfl
  | [_] => fun _ => le_rfl
  | a :: b :: r => by
    intro hmem
    have ha : a ∈ g.nodes := hmem a (List.mem_cons_self a _)
    have hb : b ∈ g.nodes := hmem b (List.mem_cons_of_mem a (List.mem_cons_self b r))
    have hsa : a ∈ g.sortedNodes := (mem_sortedNodes g a).mpr ha
    have hsb : b ∈ g.sortedNodes := (mem_sortedNodes g b).mpr hb
    have hmem' : ∀ v ∈ b :: r, v ∈ g.nodes :=
      fun v hv => hmem v (List.mem_cons_of_mem a hv)
    have hIH := map_cost_le g hnodup hval hac hsl hw (b :: r) hmem'
    rw [List.map_cons, List.map_cons]
    rw [show wcost (fun x y => matGet g.initMatrix x y)
        (g.nodeIndex a :: g.nodeIndex b :: List.map g.nodeIndex r) =
      matGet g.initMatrix (g.nodeIndex a) (g.nodeIndex b) +
        wcost (fun x y => matGet g.initMatrix x y)
          (g.nodeIndex b :: List.map g.nodeIndex r) from rfl,
      show wcost (arcW g.edges) (a :: b :: r) =
        arcW g.edges a b + wcost (arcW g.edges) (b :: r) from rfl]
    refine add_le_add ?_ (by rw [List.map_cons] at hIH; exact hIH)
    by_cases hab : a = b
    · subst hab
      rw [diag_initMatrix g hsl (g.nodeIndex a) (nodeIndex_lt g hsa)]
      exact arcW_nonneg hw a a
    · have hidxne : g.nodeIndex a ≠ g.nodeIndex b :=
        nodeIndex_inj g hab (nodeIndex_lt g hsa) (nodeIndex_lt g hsb)
      rw [initMatrix_eq_arcW g hnodup hval hac (nodeIndex_lt g hsa)
          (nodeIndex_lt g hsb) hidxne,
        nodeAt_nodeIndex g hsa, nodeAt_nodeIndex g hsb]

/-- C1 (amended): with non-negative weights, valid edge endpoints, no
self-loop edges, no inconsistently-weighted parallel arcs and duplicate-free
node ids, whenever `find_path(a, b)` returns a path, the matrix value
`get_distance(a, b)` equals the total weight of that path.  (As stated the
claim fails: `C1_counterexample` exhibits parallel arcs of different
weights on which the two results differ, because the matrix keeps the last
written weight while the search takes the least adjacency entry.) -/
theorem C1_matrix_agrees_with_dijkstra (g : NavigationGraph)
    (hnodup : g.nodes.Nodup)
    (hval : ∀ e ∈ g.edges, e.start ∈ g.nodes ∧ e.«end» ∈ g.nodes)
    (hw : ∀ e ∈ g.edges, 0 ≤ e.weight)
    (hsl : ∀ e ∈ g.edges, e.start ≠ e.«end»)
    (hac : ArcConsistent g.edges)
    {a b : String} {p : List String} (hfp : g.find_path a b = some p) :
    g.get_distance a b = pathW g p := by
  have hmem : a ∈ g.nodes ∧ b ∈ g.nodes := by
    by_contra hmem
    rw [NavigationGraph.find_path, if_neg hmem] at hfp
    exact absurd hfp (by simp)
  obtain ⟨hwalk, hleast⟩ := find_path_exact g hnodup hw hfp
  have hsa : a ∈ g.sortedNodes := (mem_sortedNodes g a).mpr hmem.1
  have hsb : b ∈ g.sortedNodes := (mem_sortedNodes g b).mpr hmem.2
  rw [NavigationGraph.get_distance, if_pos ⟨hsa, hsb⟩]
  have hia := nodeIndex_lt g hsa
  have hib := nodeIndex_lt g hsb
  have hmleast := matrix_isLeast g hw hsl hia hib
  refine le_antisymm ?_ ?_
  · have hmapwalk : IsWalkOn (· < g.sortedNodes.length)
        (g.nodeIndex a) (g.nodeIndex b) (p.map g.nodeIndex) := by
      refine ⟨?_, ?_, ?_⟩
      · rw [List.head?_map, hwalk.1, Option.map_some']
      · rw [List.getLast?_map, hwalk.2.1, Option.map_some']
      · intro k hk
        obtain ⟨v, hv, rfl⟩ := List.mem_map.mp hk
        exact nodeIndex_lt g ((mem_sortedNodes g v).mpr (hwalk.2.2 v hv))
    have h1 : matGet g.matrix (g.nodeIndex a) (g.nodeIndex b) ≤
        wcost (fun x y => matGet g.initMatrix x y) (p.map g.nodeIndex) :=
      hmleast.2 ⟨p.map g.nodeIndex, hmapwalk, rfl⟩
    exact le_trans h1 (map_cost_le g hnodup hval hac hsl hw p hwalk.2.2)
  · obtain ⟨wk, hwkwalk, hwkcost⟩ := hmleast.1
    have hq : IsWalkOn (· ∈ g.nodes) a b (dedupAdj (wk.map g.nodeAt)) := by
      refine ⟨?_, ?_, ?_⟩
      · rw [dedupAdj_head?, List.head?_map, hwkwalk.1, Option.map_some',
          nodeAt_nodeIndex g hsa]
      · rw [dedupAdj_getLast?, List.getLast?_map, hwkwalk.2.1, Option.map_some',
          nodeAt_nodeIndex g hsb]
      · intro v hv
        obtain ⟨k, hk, rfl⟩ := List.mem_map.mp (dedupAdj_subset _ v hv)
        exact nodeAt_mem g (hwkwalk.2.2 k hk)
    have h2 : pathW g p ≤ wcost (arcW g.edges) (dedupAdj (wk.map g.nodeAt)) :=
      hleast.2 ⟨_, hq, rfl⟩
    refine le_trans h2 ?_
    rw [← hwkcost]
    exact dedup_cost_le g hnodup hval hac hsl wk hwkwalk.2.2

theorem C1_matrix_agrees_with_dijkstra_witness :
    demo2.find_path "a1" "b1" = some ["a1", "a2", "b1"] ∧
    demo2.get_distance "a1" "b1" = pathW demo2 ["a1", "a2", "b1"] :=
  ⟨demo2_path,
    C1_matrix_agrees_with_dijkstra demo2 (by decide) (by decide) (by decide)
      (by decide) (by unfold ArcConsistent; decide) demo2_path⟩
